import Mathlib

/-
Verification of the real-time audio graph engine (packages/native/src):
a shallow embedding, in Lean 4, of the message-thread graph authority
(AudioGraph.cpp), the Kahn scheduler (buildProcessingOrder), the SPSC
parameter queue (SPSCQueue.h), the buffer pool, and the per-node parameter
and bypass contract (nodes/NodeBase.h), together with theorems settling the
specification's claims about them.

Machine floats appear in the source only as stored parameter values and
audio samples; every property proved here concerns copying, lookup,
ordering and comparison, never rounding, so sample and parameter values
are embedded as exact rationals.
-/

set_option maxHeartbeats 1000000

namespace RAU

/-- Audio sample / parameter value (a 32-bit float in the C++ source;
embedded as an exact rational, see the header comment). -/
abbrev Val := Rat

/-! ## Parameter map (AudioNodeBase, nodes/NodeBase.h)

The C++ node stores parameters in an `std::unordered_map<std::string,
AtomicFloat>`. Only `find`, `emplace` and value stores are ever performed on
it, so it is embedded as an association list with unique keys; iteration
order is never observed. -/

/-- Parameter map of a node. -/
abbrev ParamMap := List (String × Val)

/-- Lookup of params.find(name): first entry with the given key. -/
def pmFind (m : ParamMap) (name : String) : Option Val :=
  match m with
  | [] => none
  | (k, v) :: rest => if k = name then some v else pmFind rest name

/-- AudioNodeBase::addParam — params.emplace(name, defaultValue); emplace
inserts only when the key is absent. -/
def addParam (m : ParamMap) (name : String) (v : Val) : ParamMap :=
  match pmFind m name with
  | some _ => m
  | none => m ++ [(name, v)]

/-- AudioNodeBase::setParam — stores through the entry found by
params.find(name); when no entry exists the write is a no-op. -/
def setParam (m : ParamMap) (name : String) (v : Val) : ParamMap :=
  match m with
  | [] => []
  | (k, w) :: rest =>
      if k = name then (k, v) :: rest else (k, w) :: setParam rest name v

/-- AudioNodeBase::getParam — the stored value, or 0 when no entry exists. -/
def getParam (m : ParamMap) (name : String) : Val :=
  match pmFind m name with
  | some v => v
  | none => 0

/-- AudioNodeBase::isBypassed — true when the "bypass" entry exists and
exceeds 0.5; false when the entry is absent. -/
def isBypassed (m : ParamMap) : Bool :=
  match pmFind m "bypass" with
  | some v => decide (v > 1/2)
  | none => false

theorem setParam_absent (m : ParamMap) (name : String) (v : Val)
    (h : pmFind m name = none) : setParam m name v = m := by
  induction m with
  | nil => rfl
  | cons hd tl ih =>
      obtain ⟨k, w⟩ := hd
      by_cases hk : k = name
      · simp [pmFind, hk] at h
      · simp [pmFind, hk] at h
        simp [setParam, hk, ih h]

theorem pmFind_setParam_self (m : ParamMap) (name : String) (v : Val)
    (h : pmFind m name ≠ none) :
    pmFind (setParam m name v) name = some v := by
  induction m with
  | nil => simp [pmFind] at h
  | cons hd tl ih =>
      obtain ⟨k, w⟩ := hd
      by_cases hk : k = name
      · simp [setParam, hk, pmFind]
      · simp [pmFind, hk] at h
        simp [setParam, hk, pmFind, ih h]

/-! ## Audio buffers and bypass processing (nodes/NodeBase.h)

A juce::AudioBuffer<float> is embedded as a list of channels, each a list
of samples. A BufferRef is embedded as an `Option Buffer`: the null/invalid
reference is `none`. -/

/-- Multi-channel audio buffer. -/
structure Buffer where
  channels : List (List Val)
deriving DecidableEq, Repr

/-- Buffer.copyFrom(ch, 0, src, ch, 0, n) restricted to one channel:
overwrite the first n samples of dst with the first n samples of src. -/
def copyInto (dst src : List Val) (n : Nat) : List Val :=
  src.take n ++ dst.drop n

/-- Buffer.clear(ch, 0, n) restricted to one channel: zero the first
n samples. -/
def clearSamples (dst : List Val) (n : Nat) : List Val :=
  List.replicate (min n dst.length) 0 ++ dst.drop n

/-- Channel loop of AudioNodeBase::processBypass: each output channel that
has a matching input channel is copied from it; output channels beyond the
input's channel count are cleared. -/
def bypassChannels (ins outs : List (List Val)) (n : Nat) : List (List Val) :=
  match ins, outs with
  | _, [] => []
  | [], d :: ds => clearSamples d n :: bypassChannels [] ds n
  | s :: ss, d :: ds => copyInto d s n :: bypassChannels ss ds n

/-- AudioNodeBase::processBypass — copies inlet 0 to the output when inlet 0
and the output are both valid; otherwise writes nothing. -/
def processBypass (inputs : List (Option Buffer)) (out : Option Buffer)
    (n : Nat) : Option Buffer :=
  match inputs, out with
  | some inBuf :: _, some outBuf =>
      some ⟨bypassChannels inBuf.channels outBuf.channels n⟩
  | _, _ => out

theorem bypassChannels_get (n : Nat) :
    ∀ (ins outs : List (List Val)) (ch : Nat) (src dst : List Val),
      ins[ch]? = some src → outs[ch]? = some dst →
      (bypassChannels ins outs n)[ch]? = some (copyInto dst src n) := by
  intro ins
  induction ins with
  | nil => intro outs ch src dst h; simp at h
  | cons s ss ih =>
      intro outs ch src dst hin hout
      cases outs with
      | nil => simp at hout
      | cons d ds =>
          cases ch with
          | zero =>
              simp at hin hout
              simp [bypassChannels, hin, hout]
          | succ m =>
              simp at hin hout
              simpa [bypassChannels] using ih ds m src dst hin hout

theorem copyInto_take (dst src : List Val) (n : Nat) (h : n ≤ src.length) :
    (copyInto dst src n).take n = src.take n := by
  unfold copyInto
  rw [List.take_append_of_le_length]
  · simp
  · simp [h]

/-- Process-call dispatch in AudioGraph::processBlock (lines 444-452):
processBypass runs when the node's bypass parameter exceeds 0.5, the node's
virtual process otherwise. The virtual process is passed as a function; no
node class overrides processBypass, so the base-class implementation above
is the one dispatched for every node type. -/
def processDispatch (params : ParamMap)
    (proc : List (Option Buffer) → Option Buffer → Nat → Option Buffer)
    (inputs : List (Option Buffer)) (out : Option Buffer) (n : Nat) :
    Option Buffer :=
  if isBypassed params then processBypass inputs out n else proc inputs out n

theorem isBypassed_of_gt (params : ParamMap)
    (hby : getParam params "bypass" > 1/2) : isBypassed params = true := by
  cases h : pmFind params "bypass" with
  | none => simp [getParam, h] at hby; norm_num at hby
  | some v =>
      simp [getParam, h] at hby
      simp [isBypassed, h, hby]

/-- C8: whenever a node's bypass parameter exceeds 0.5 the block processor
invokes process_bypass instead of process, and process_bypass writes the
inlet-0 input buffer bit-identically onto every channel the two buffers
share (over the numSamples region processed in the block). -/
theorem C8_bypass_dispatch_passthrough
    (params : ParamMap)
    (proc : List (Option Buffer) → Option Buffer → Nat → Option Buffer)
    (inputs : List (Option Buffer)) (inBuf outBuf : Buffer) (n : Nat)
    (hby : getParam params "bypass" > 1/2)
    (h0 : inputs.head? = some (some inBuf)) :
    processDispatch params proc inputs (some outBuf) n =
      processBypass inputs (some outBuf) n ∧
    ∃ res : Buffer,
      processBypass inputs (some outBuf) n = some res ∧
      ∀ (ch : Nat) (src dst : List Val), inBuf.channels[ch]? = some src →
        outBuf.channels[ch]? = some dst → n ≤ src.length →
        res.channels[ch]? = some (copyInto dst src n) ∧
        (copyInto dst src n).take n = src.take n := by
  obtain ⟨a, rest, rfl⟩ : ∃ a rest, inputs = a :: rest := by
    cases inputs with
    | nil => simp at h0
    | cons a rest => exact ⟨a, rest, rfl⟩
  simp at h0
  subst h0
  refine ⟨by simp [processDispatch, isBypassed_of_gt params hby], ?_⟩
  refine ⟨⟨bypassChannels inBuf.channels outBuf.channels n⟩, rfl, ?_⟩
  intro ch src dst hsrc hdst hn
  exact ⟨bypassChannels_get n _ _ ch src dst hsrc hdst, copyInto_take dst src n hn⟩

/-- Witness for C8 at a concrete bypassed gain node: a two-sample inlet-0
buffer is copied verbatim onto the shared channel. -/
theorem C8_bypass_dispatch_passthrough_witness :
    processDispatch [("gain", (2 : Val)), ("bypass", 1)] (fun _ o _ => o)
        [some ⟨[[(1 : Val), 2]]⟩] (some ⟨[[0, 0]]⟩) 2 =
      processBypass [some ⟨[[(1 : Val), 2]]⟩] (some ⟨[[0, 0]]⟩) 2 ∧
    ∃ res : Buffer,
      processBypass [some ⟨[[(1 : Val), 2]]⟩] (some ⟨[[0, 0]]⟩) 2 = some res ∧
      ∀ (ch : Nat) (src dst : List Val), (Buffer.mk [[(1 : Val), 2]]).channels[ch]? = some src →
        (Buffer.mk [[(0 : Val), 0]]).channels[ch]? = some dst → 2 ≤ src.length →
        res.channels[ch]? = some (copyInto dst src 2) ∧
        (copyInto dst src 2).take 2 = src.take 2 :=
  C8_bypass_dispatch_passthrough [("gain", 2), ("bypass", 1)] (fun _ o _ => o)
    [some ⟨[[1, 2]]⟩] ⟨[[1, 2]]⟩ ⟨[[0, 0]]⟩ 2 (by simp [getParam, pmFind]; norm_num) rfl

/-- C9: a parameter name with no registered entry is silently ignored on
write (the map is entirely unchanged; no entry is created) and reads as 0;
a registered name reads back the most recently stored value. -/
theorem C9_unknown_param_ignored (m : ParamMap) (name : String) (v : Val) :
    (pmFind m name = none → setParam m name v = m ∧ getParam m name = 0) ∧
    (pmFind m name ≠ none → getParam (setParam m name v) name = v) := by
  constructor
  · intro h
    exact ⟨setParam_absent m name v h, by simp [getParam, h]⟩
  · intro h
    simp [getParam, pmFind_setParam_self m name v h]

/-- Witness for C9 on a gain node's parameter map: writing the unknown name
"cutoff" changes nothing and it reads as 0; writing the registered name
"gain" reads back the written value. -/
theorem C9_unknown_param_ignored_witness :
    (setParam [("gain", (1 : Val)), ("bypass", 0)] "cutoff" 7 =
        [("gain", 1), ("bypass", 0)] ∧
      getParam [("gain", (1 : Val)), ("bypass", 0)] "cutoff" = 0) ∧
    getParam (setParam [("gain", (1 : Val)), ("bypass", 0)] "gain" 7) "gain" = 7 :=
  ⟨(C9_unknown_param_ignored [("gain", 1), ("bypass", 0)] "cutoff" 7).1 (by decide),
   (C9_unknown_param_ignored [("gain", 1), ("bypass", 0)] "gain" 7).2 (by decide)⟩

/-! ## Association-list maps

The C++ side keeps its maps in `std::unordered_map`. Every map is embedded
as an association list with unique keys holding the map's iteration order;
`assocSet` is insert-or-assign (a fresh key goes to the end of the
iteration order). -/

/-- Map lookup (find). -/
def assocFind {κ α : Type} [DecidableEq κ] (l : List (κ × α)) (k : κ) :
    Option α :=
  match l with
  | [] => none
  | (k', v) :: rest => if k' = k then some v else assocFind rest k

/-- Map insert-or-assign (operator[] followed by an assignment). -/
def assocSet {κ α : Type} [DecidableEq κ] (l : List (κ × α)) (k : κ)
    (v : α) : List (κ × α) :=
  match l with
  | [] => [(k, v)]
  | (k', w) :: rest =>
      if k' = k then (k', v) :: rest else (k', w) :: assocSet rest k v

/-! ## Scheduler (AudioGraph::buildProcessingOrder, AudioGraph.cpp 268-324)

Kahn's algorithm: in-degrees over the connection list restricted to
connections whose two endpoints exist in the node map, a FIFO work queue
seeded with the in-degree-zero nodes in map iteration order, and a loop
that pops, appends to the order, and decrements successors. -/

/-- Connection — a (from-node, from-outlet, to-node, to-inlet) tuple
(GraphSnapshot::Connection in AudioGraph.h). -/
structure Connection where
  fromNodeId : String
  fromOutlet : Int
  toNodeId : String
  toInlet : Int
deriving DecidableEq, Repr

/-- In-degree bump: inDegree[toNodeId]++ (operator[] default-inserts 0). -/
def bumpDeg (l : List (String × Int)) (k : String) : List (String × Int) :=
  assocSet l k (((assocFind l k).getD 0) + 1)

/-- Adjacency push: adjacency[fromNodeId].push_back(toNodeId). -/
def pushAdj (l : List (String × List String)) (k v : String) :
    List (String × List String) :=
  assocSet l k (((assocFind l k).getD []) ++ [v])

/-- First phase of buildProcessingOrder: inDegree[id] = 0 for every node,
then one bump and one adjacency push per connection whose endpoints both
exist in the node map. -/
def degAdj (nodeIds : List String) (conns : List Connection) :
    List (String × Int) × List (String × List String) :=
  conns.foldl
    (fun p c =>
      if nodeIds.contains c.toNodeId && nodeIds.contains c.fromNodeId then
        (bumpDeg p.1 c.toNodeId, pushAdj p.2 c.fromNodeId c.toNodeId)
      else p)
    (nodeIds.foldl (fun d id => assocSet d id 0) [], [])

/-- Neighbour loop of one pop step: inDegree[neighbor]-- for each neighbour
in adjacency order, enqueueing the neighbours that reach exactly 0. -/
def decNeighbors (deg : List (String × Int)) :
    List String → List (String × Int) × List String
  | [] => (deg, [])
  | nb :: rest =>
      let v := ((assocFind deg nb).getD 0) - 1
      let p := decNeighbors (assocSet deg nb v) rest
      (p.1, (if v = 0 then [nb] else []) ++ p.2)

/-- Total positive in-degree — the loop's termination measure together with
the queue length. -/
def posWeight (l : List (String × Int)) : Nat :=
  (l.map (fun e => e.2.toNat)).sum

/-- While loop of Kahn's algorithm. The C++ loop terminates because each
pop removes one queue entry and every enqueue consumes one unit of positive
in-degree; the fuel argument makes the recursion structural, and
kahnLoop_fuel_irrelevant below shows the fuel buildProcessingOrder supplies
is never exhausted. -/
def kahnLoop (nodeIds : List String) (adj : List (String × List String)) :
    Nat → List String → List (String × Int) → List String → List String
  | _, [], _, order => order
  | 0, _ :: _, _, order => order
  | fuel + 1, id :: rest, deg, order =>
      kahnLoop nodeIds adj fuel
        (rest ++ (decNeighbors deg ((assocFind adj id).getD [])).2)
        (decNeighbors deg ((assocFind adj id).getD [])).1
        (if nodeIds.contains id then order ++ [id] else order)

/-- AudioGraph::buildProcessingOrder — the processing order over the node
map (its iteration-order key list; the map's values are the owning pointers
and only their ids matter) and the connection list. The node map and the
freshly built in-degree map are std::unordered_map, whose hash-determined
iteration order the standard ties to nothing — in particular not to
insertion order; the model takes that order as the explicit input nodeIds
and seeds the ready queue in it, so every sequencing consequence is
relative to this order, and properties of the contents alone must be
insensitive to permuting it. -/
def buildProcessingOrder (nodeIds : List String) (conns : List Connection) :
    List String :=
  let da := degAdj nodeIds conns
  let q0 := (da.1.filter (fun e => e.2 == 0)).map (fun e => e.1)
  kahnLoop nodeIds da.2 (q0.length + posWeight da.1) q0 da.1 []

/-! ## Nodes, factory and graph operations -/

/-- DSP node owned by the graph authority: identity, type tag and parameter
map. The per-type DSP state (delay lines, filter memories, ...) is
irrelevant to every claim settled here and is not carried. -/
structure Node where
  nodeId : String
  nodeType : String
  params : ParamMap
deriving DecidableEq, Repr

/-- NodeFactory::create — one constructor per type tag, each registering the
parameters of its C++ constructor (decimal float literals such as 0.707f
are embedded as the decimal rationals; no claim does arithmetic on them).
Unknown tags and the special "input" / "midi_input" tags yield none
(nullptr). -/
def NodeFactory.create (ty : String) : Option Node :=
  let mk := fun (ps : ParamMap) =>
    some { nodeId := "", nodeType := ty, params := ps }
  if ty = "gain" then mk [("gain", 1), ("bypass", 0)]
  else if ty = "delay" then
    mk [("time", 500), ("feedback", 0), ("mix", 1), ("bypass", 0)]
  else if ty = "filter" then
    mk [("filterType", 0), ("cutoff", 1000), ("resonance", 707/1000),
        ("gainDb", 0), ("bypass", 0)]
  else if ty = "mix" then mk [("mix", 1/2), ("bypass", 0)]
  else if ty = "compressor" then
    mk [("threshold", -20), ("ratio", 4), ("attack", 10), ("release", 100),
        ("knee", 0), ("makeupGain", 0), ("bypass", 0)]
  else if ty = "reverb" then
    mk [("roomSize", 1/2), ("damping", 1/2), ("preDelay", 0), ("mix", 3/10),
        ("bypass", 0)]
  else if ty = "distortion" then
    mk [("distortionType", 0), ("drive", 1), ("outputGain", 1/2), ("mix", 1),
        ("bypass", 0)]
  else if ty = "pan" then mk [("pan", 0), ("law", 1), ("bypass", 0)]
  else if ty = "oscillator" then
    mk [("waveform", 0), ("frequency", 440), ("detune", 0), ("gain", 1),
        ("bypass", 0)]
  else if ty = "lfo" then
    mk [("shape", 0), ("rate", 1), ("depth", 1), ("phase", 0), ("bypass", 0)]
  else if ty = "envelope" then
    mk [("attack", 10), ("decay", 100), ("sustain", 7/10), ("release", 200),
        ("gate", 0), ("bypass", 0)]
  else if ty = "meter" then mk [("meterType", 2), ("bypass", 0)]
  else if ty = "spectrum" then mk [("bypass", 0)]
  else none

/-- GraphOp (AudioGraph.h) — one message-thread graph operation. The C++
struct is a record with a Type enum plus the union of payload fields; the
inductive carries each case's payload. -/
inductive GraphOp where
  | addNode (nodeId nodeType : String) (params : ParamMap)
  | removeNode (nodeId : String)
  | updateParams (nodeId : String) (params : ParamMap)
  | connect (fromNodeId : String) (fromOutlet : Int) (toNodeId : String)
      (toInlet : Int)
  | disconnect (fromNodeId : String) (fromOutlet : Int) (toNodeId : String)
      (toInlet : Int)
  | setOutput (nodeId : String)
deriving DecidableEq, Repr

/-- Topology-bearing check: every op except UpdateParams. -/
def GraphOp.isTopology : GraphOp → Bool
  | .updateParams _ _ => false
  | _ => true

/-- Authoritative message-thread state of AudioGraph: node map (iteration
order association list), canonical connection list, output/input bindings,
and the contents of the SPSC parameter-op queue. The queue's bounded ring
is verified separately (see SPSC below); here only its contents matter. -/
structure AuthState where
  nodes : List (String × Node)
  connections : List Connection
  outputNodeId : String
  inputNodeId : String
  inputNodeIds : List (Int × String)
  paramQueue : List GraphOp
deriving DecidableEq, Repr

/-- Freshly constructed AudioGraph: everything empty. -/
def emptyAuth : AuthState :=
  { nodes := [], connections := [], outputNodeId := "", inputNodeId := "",
    inputNodeIds := [], paramQueue := [] }

/-- Parameter loop of the AddNode case: node->setParam(k, v) for each entry
of op.params (unknown names are dropped by setParam). -/
def applyParams (m : ParamMap) (ps : ParamMap) : ParamMap :=
  ps.foldl (fun acc p => setParam acc p.1 p.2) m

/-- static_cast<int> of a float value: truncation toward zero. -/
def valToInt (v : Val) : Int :=
  Int.tdiv v.num (v.den : Int)

/-- AudioGraph::applyTopologyOp — applies a single topology op to the
authoritative state; the caller is responsible for rebuilding the
snapshot. UpdateParams never reaches this switch (both callers divert it to
the queue); it falls to the default branch. -/
def applyTopologyOp (s : AuthState) (op : GraphOp) : AuthState :=
  match op with
  | .addNode id ty ps =>
      match NodeFactory.create ty with
      | some node =>
          let node' : Node :=
            { node with
                nodeId := id
                nodeType := ty
                params := applyParams node.params ps }
          { s with nodes := assocSet s.nodes id node' }
      | none =>
          if ty = "input" then
            let busIndex := match pmFind ps "channel" with
              | some v => valToInt v
              | none => 0
            { s with
                inputNodeIds := assocSet s.inputNodeIds busIndex id
                inputNodeId := if busIndex = 0 then id else s.inputNodeId }
          else s
  | .removeNode id =>
      { s with
          connections := s.connections.filter
            (fun c => !(c.fromNodeId == id || c.toNodeId == id))
          nodes := s.nodes.filter (fun e => !(e.1 == id))
          inputNodeId := if s.inputNodeId = id then "" else s.inputNodeId
          inputNodeIds := s.inputNodeIds.filter (fun e => !(e.2 == id)) }
  | .connect f fo t ti =>
      { s with connections := s.connections ++ [⟨f, fo, t, ti⟩] }
  | .disconnect f fo t ti =>
      { s with connections :=
          s.connections.filter (fun c =>
            !(c.fromNodeId == f && c.fromOutlet == fo &&
              c.toNodeId == t && c.toInlet == ti)) }
  | .setOutput id => { s with outputNodeId := id }
  | .updateParams _ _ => s

/-- GraphSnapshot — the immutable topology snapshot published for the audio
thread. The C++ processingOrder holds node pointers; a node's identity is
its id, so the order is embedded as the ids in order. -/
structure GraphSnapshot where
  processingOrder : List String
  connections : List Connection
  outputNodeId : String
  inputNodeId : String
  inputNodeIds : List (Int × String)
  nodeMap : List (String × Node)
deriving DecidableEq, Repr

/-- AudioGraph::rebuildAndPublishSnapshot — the snapshot value built from
the authoritative state. The two pre-allocated staging slots and the atomic
pointer swap govern memory reuse and visibility, not content; publication
is modelled as this built value. -/
def rebuildSnapshot (s : AuthState) : GraphSnapshot :=
  { connections := s.connections
    outputNodeId := s.outputNodeId
    inputNodeId := s.inputNodeId
    inputNodeIds := s.inputNodeIds
    nodeMap := s.nodes
    processingOrder :=
      buildProcessingOrder (s.nodes.map (fun e => e.1)) s.connections }

/-- AudioGraph::queueOp — an UpdateParams op goes to the SPSC queue; a
topology op is applied immediately and followed by exactly one
rebuild-and-publish. Returns the new state and the snapshots published
during the call, in publication order. -/
def queueOp (s : AuthState) (op : GraphOp) : AuthState × List GraphSnapshot :=
  match op with
  | .updateParams _ _ => ({ s with paramQueue := s.paramQueue ++ [op] }, [])
  | _ => ((applyTopologyOp s op), [rebuildSnapshot (applyTopologyOp s op)])

/-- Loop body of AudioGraph::queueOps — divert UpdateParams to the queue,
apply everything else and raise the topologyChanged flag. -/
def queueOpsStep (p : AuthState × Bool) (op : GraphOp) : AuthState × Bool :=
  match op with
  | .updateParams _ _ =>
      ({ p.1 with paramQueue := p.1.paramQueue ++ [op] }, p.2)
  | _ => (applyTopologyOp p.1 op, true)

/-- AudioGraph::queueOps — applies every op of the batch, then rebuilds and
publishes the snapshot once iff some topology-bearing op was seen. Returns
the new state and the snapshots published during the call. -/
def queueOps (s : AuthState) (ops : List GraphOp) :
    AuthState × List GraphSnapshot :=
  let p := ops.foldl queueOpsStep (s, false)
  (p.1, if p.2 then [rebuildSnapshot p.1] else [])

theorem assocFind_filter_ne {α : Type} (l : List (String × α)) (id : String) :
    assocFind (l.filter (fun e => !(e.1 == id))) id = none := by
  induction l with
  | nil => rfl
  | cons hd tl ih =>
      by_cases h : hd.1 = id
      · simpa [List.filter_cons, h] using ih
      · simp [List.filter_cons, h, assocFind, ih]

/-- Counterexample to C4: a batch of two connect ops claiming the same
(to-node, to-inlet) pair ("C", 0) publishes a snapshot whose connection
list keeps both — the second connect replaces nothing, refuting "at most
one connection per (to-node-id, to-inlet) pair" in any snapshot. -/
theorem C4_connect_counterexample :
    ((queueOps emptyAuth
        [.connect "A" 0 "C" 0, .connect "B" 0 "C" 0]).2.map
      (fun snap => (snap.connections.filter
        (fun c => c.toNodeId == "C" && c.toInlet == 0)).length)) = [2] := by
  decide

/-- C4 (amended): connect(from, outlet, to, inlet) always appends the
connection to the authoritative list, whether or not an existing connection
already claims the (to, inlet) pair; nothing is replaced, so a snapshot may
carry several connections per (to-node-id, to-inlet) pair. -/
theorem C4_connect_appends (s : AuthState) (f : String) (fo : Int)
    (t : String) (ti : Int) :
    (applyTopologyOp s (.connect f fo t ti)).connections =
      s.connections ++ [⟨f, fo, t, ti⟩] := rfl

/-- Counterexample to C6: removing the node designated as output leaves the
output binding pointing at the erased id — remove-node never clears
outputNodeId (AudioGraph.cpp 109-129 touches connections, the node map and
the input bindings only). -/
theorem C6_remove_counterexample :
    (queueOps emptyAuth
        [.addNode "A" "gain" [], .setOutput "A",
         .removeNode "A"]).1.outputNodeId = "A" ∧
    assocFind (queueOps emptyAuth
        [.addNode "A" "gain" [], .setOutput "A",
         .removeNode "A"]).1.nodes "A" = none := by
  constructor
  · rfl
  · decide

/-- C6 (amended): after remove-node(id) no connection references id, id is
absent from the node map, and the input bindings that pointed to id are
cleared; the output binding is left unchanged even when it pointed to id. -/
theorem C6_remove_node (s : AuthState) (id : String) :
    (∀ c ∈ (applyTopologyOp s (.removeNode id)).connections,
        c.fromNodeId ≠ id ∧ c.toNodeId ≠ id) ∧
    assocFind (applyTopologyOp s (.removeNode id)).nodes id = none ∧
    (applyTopologyOp s (.removeNode id)).inputNodeId =
      (if s.inputNodeId = id then "" else s.inputNodeId) ∧
    (∀ e ∈ (applyTopologyOp s (.removeNode id)).inputNodeIds, e.2 ≠ id) ∧
    (applyTopologyOp s (.removeNode id)).outputNodeId = s.outputNodeId := by
  refine ⟨?_, ?_, rfl, ?_, rfl⟩
  · intro c hc
    simp [applyTopologyOp, List.mem_filter] at hc
    exact hc.2
  · exact assocFind_filter_ne s.nodes id
  · intro e he
    simp [applyTopologyOp, List.mem_filter] at he
    exact he.2

/-! ## SPSC ring (SPSCQueue.h), at the engine's instantiation Size = 1024

Indices are stored already masked; for the power-of-two size,
x & (Size - 1) = x % Size, so the mask is embedded as % 1024. The
producer/consumer release/acquire orderings make each thread observe the
sequential semantics below; that functional content is what is verified
(the memory-order argument itself is outside a shallow embedding). -/

namespace SPSC

/-- Ring size of the engine's parameter queue
(SPSCQueue<GraphOp, 1024> paramOpQueue). -/
def ringSize : Nat := 1024

/-- Queue state: masked head and tail indices plus the backing array,
embedded as a total function from slot index. -/
structure State (α : Type) where
  head : Nat
  tail : Nat
  buffer : Nat → α

/-- Freshly constructed queue: head = tail = 0, default-constructed
slots. -/
def emptyState {α : Type} (a : α) : State α :=
  { head := 0, tail := 0, buffer := fun _ => a }

/-- SPSCQueue::push — returns false when advancing the tail would meet the
head (queue full); otherwise writes the record into the tail slot and
publishes the advanced tail. -/
def push {α : Type} (q : State α) (x : α) : Bool × State α :=
  if (q.tail + 1) % ringSize = q.head then (false, q)
  else
    (true,
     { q with
         buffer := fun i => if i = q.tail then x else q.buffer i
         tail := (q.tail + 1) % ringSize })

/-- SPSCQueue::pop — returns none when the head meets the tail (queue
empty); otherwise moves the record at the head out and advances the head.
The C++ bool-plus-out-parameter pair is embedded as an Option. -/
def pop {α : Type} (q : State α) : Option α × State α :=
  if q.head = q.tail then (none, q)
  else (some (q.buffer q.head), { q with head := (q.head + 1) % ringSize })

/-- Number of records held (the C++ sizeApprox formula (t - h) & MASK,
with unsigned wraparound written out). -/
def len {α : Type} (q : State α) : Nat :=
  (q.tail + ringSize - q.head) % ringSize

/-- Records held, from oldest to newest. -/
def contents {α : Type} (q : State α) : List α :=
  (List.range (len q)).map (fun i => q.buffer ((q.head + i) % ringSize))

/-- Well-formedness: both masked indices are in range (any state reachable
from the constructor satisfies this). -/
def wf {α : Type} (q : State α) : Prop :=
  q.head < ringSize ∧ q.tail < ringSize

theorem push_fail_iff {α : Type} (q : State α) (x : α) (h : wf q) :
    ((push q x).1 = false ↔ len q = ringSize - 1) ∧
    ((push q x).1 = false → (push q x).2 = q) := by
  obtain ⟨h1, h2⟩ := h
  by_cases hc : (q.tail + 1) % ringSize = q.head
  · have hp : push q x = (false, q) := by simp [push, hc]
    refine ⟨⟨fun _ => ?_, fun _ => by simp [hp]⟩, fun _ => by simp [hp]⟩
    unfold len ringSize at *
    omega
  · have hp1 : (push q x).1 = true := by simp [push, hc]
    refine ⟨⟨fun hf => by simp [hp1] at hf, fun hl => ?_⟩,
      fun hf => by simp [hp1] at hf⟩
    exfalso
    unfold len ringSize at *
    omega

theorem push_ok {α : Type} (q : State α) (x : α) (h : wf q)
    (hs : (push q x).1 = true) :
    contents (push q x).2 = contents q ++ [x] ∧ wf (push q x).2 := by
  obtain ⟨h1, h2⟩ := h
  have hne : (q.tail + 1) % ringSize ≠ q.head := by
    intro hc
    simp [push, hc] at hs
  have hh : (push q x).2.head = q.head := by simp [push, hne]
  have ht : (push q x).2.tail = (q.tail + 1) % ringSize := by
    simp [push, hne]
  have hb : (push q x).2.buffer =
      fun i => if i = q.tail then x else q.buffer i := by
    simp [push, hne]
  have hlen : len (push q x).2 = len q + 1 := by
    unfold len
    rw [hh, ht]
    unfold ringSize at *
    omega
  refine ⟨?_, ?_, ?_⟩
  · unfold contents
    rw [hlen, hh, List.range_succ, List.map_append]
    congr 1
    · apply List.map_congr_left
      intro i hi
      simp only [List.mem_range] at hi
      rw [hb]
      have hit : (q.head + i) % ringSize ≠ q.tail := by
        unfold len ringSize at *
        omega
      simp [hit]
    · have hat : (q.head + len q) % ringSize = q.tail := by
        unfold len ringSize at *
        omega
      simp [hb, hat]
  · rw [hh]
    exact h1
  · rw [ht]
    unfold ringSize
    omega

theorem pop_empty_iff {α : Type} (q : State α) (h : wf q) :
    (((pop q).1 = none) ↔ contents q = []) ∧
    ((pop q).1 = none → (pop q).2 = q) := by
  obtain ⟨h1, h2⟩ := h
  have hcon : (contents q = []) ↔ len q = 0 := by
    constructor
    · intro he
      have := congrArg List.length he
      simpa [contents] using this
    · intro he
      simp [contents, he]
  by_cases hc : q.head = q.tail
  · have hp : pop q = (none, q) := by simp [pop, hc]
    refine ⟨⟨fun _ => ?_, fun _ => by simp [hp]⟩, fun _ => by simp [hp]⟩
    rw [hcon]
    unfold len ringSize at *
    omega
  · have hp1 : (pop q).1 = some (q.buffer q.head) := by simp [pop, hc]
    refine ⟨⟨fun hf => by simp [hp1] at hf, fun he => ?_⟩,
      fun hf => by simp [hp1] at hf⟩
    exfalso
    rw [hcon] at he
    unfold len ringSize at *
    omega

theorem pop_ok {α : Type} (q : State α) (h : wf q) (v : α)
    (hs : (pop q).1 = some v) :
    v = q.buffer q.head ∧ contents q = v :: contents (pop q).2 ∧
    wf (pop q).2 := by
  obtain ⟨h1, h2⟩ := h
  have hne : q.head ≠ q.tail := by
    intro hc
    simp [pop, hc] at hs
  have hh : (pop q).2.head = (q.head + 1) % ringSize := by simp [pop, hne]
  have htl : (pop q).2.tail = q.tail := by simp [pop, hne]
  have hb : (pop q).2.buffer = q.buffer := by simp [pop, hne]
  have hv : v = q.buffer q.head := by
    simp [pop, hne] at hs
    exact hs.symm
  have hlen : len q = len (pop q).2 + 1 := by
    unfold len
    rw [hh, htl]
    unfold ringSize at *
    omega
  refine ⟨hv, ?_, ?_, ?_⟩
  · unfold contents
    rw [hlen, List.range_succ_eq_map, List.map_cons, List.map_map]
    congr 1
    · rw [hv]
      congr 1
      unfold ringSize at *
      omega
    · rw [hh, hb]
      apply List.map_congr_left
      intro i hi
      simp only [Function.comp_apply, List.mem_range] at hi ⊢
      congr 1
      unfold ringSize at *
      omega
  · rw [hh]
    unfold ringSize
    omega
  · rw [htl]
    exact h2

/-- One producer/consumer trace operation. -/
inductive TraceOp (α : Type) where
  | push (x : α)
  | pop

/-- Run a trace, collecting the records accepted by push and the records
returned by pop, in order. -/
def runTrace {α : Type} (q : State α) :
    List (TraceOp α) → State α × List α × List α
  | [] => (q, [], [])
  | .push x :: rest =>
      let r := push q x
      let t := runTrace r.2 rest
      (t.1, (if r.1 then [x] else []) ++ t.2.1, t.2.2)
  | .pop :: rest =>
      let r := pop q
      let t := runTrace r.2 rest
      (t.1, t.2.1, (match r.1 with | some v => [v] | none => []) ++ t.2.2)

theorem runTrace_fifo {α : Type} (ops : List (TraceOp α)) :
    ∀ (q : State α), wf q →
      contents q ++ (runTrace q ops).2.1 =
        (runTrace q ops).2.2 ++ contents (runTrace q ops).1 ∧
      wf (runTrace q ops).1 := by
  induction ops with
  | nil => intro q hq; simpa [runTrace] using hq
  | cons op rest ih =>
      intro q hq
      cases op with
      | push x =>
          cases hs : (push q x).1 with
          | true =>
              obtain ⟨hc, hw⟩ := push_ok q x hq hs
              obtain ⟨ht, htw⟩ := ih (push q x).2 hw
              refine ⟨?_, by simpa [runTrace] using htw⟩
              simp only [runTrace, hs, if_pos]
              calc contents q ++ ([x] ++ (runTrace (push q x).2 rest).2.1)
                  = contents (push q x).2 ++ (runTrace (push q x).2 rest).2.1 := by
                    rw [hc]; simp
                _ = _ := by rw [ht]
          | false =>
              have hunch := ((push_fail_iff q x hq).2) hs
              obtain ⟨ht, htw⟩ := ih (push q x).2 (by rw [hunch]; exact hq)
              rw [hunch] at ht htw
              refine ⟨?_, by simpa [runTrace, hunch] using htw⟩
              simp only [runTrace, hs]
              simpa [hunch] using ht
      | pop =>
          cases hs : (pop q).1 with
          | some v =>
              obtain ⟨hv, hc, hw⟩ := pop_ok q hq v hs
              obtain ⟨ht, htw⟩ := ih (pop q).2 hw
              refine ⟨?_, by simpa [runTrace] using htw⟩
              simp only [runTrace, hs]
              rw [hc]
              simpa using ht
          | none =>
              have hunch := ((pop_empty_iff q hq).2) hs
              obtain ⟨ht, htw⟩ := ih (pop q).2 (by rw [hunch]; exact hq)
              rw [hunch] at ht htw
              refine ⟨?_, by simpa [runTrace, hunch] using htw⟩
              simp only [runTrace, hs]
              simpa [hunch] using ht

end SPSC

/-- C3: over any sequence of push/pop calls from a fresh queue, the records
returned by pop are exactly the records accepted by push, in order, with
the still-queued suffix accounting for the difference (no loss, duplication
or reordering); push returns false exactly when the ring is full (holding
ringSize - 1 records) and leaves the queue unchanged; pop returns nothing
exactly when the ring is empty, leaving the queue unchanged. -/
theorem C3_spsc_fifo {α : Type} (a₀ : α) (ops : List (SPSC.TraceOp α)) :
    (SPSC.runTrace (SPSC.emptyState a₀) ops).2.1 =
      (SPSC.runTrace (SPSC.emptyState a₀) ops).2.2 ++
        SPSC.contents (SPSC.runTrace (SPSC.emptyState a₀) ops).1 ∧
    (∀ (q : SPSC.State α) (x : α), SPSC.wf q →
      (((SPSC.push q x).1 = false ↔
          (SPSC.contents q).length = SPSC.ringSize - 1) ∧
        ((SPSC.push q x).1 = false → (SPSC.push q x).2 = q))) ∧
    (∀ (q : SPSC.State α), SPSC.wf q →
      ((((SPSC.pop q).1 = none) ↔ SPSC.contents q = []) ∧
        ((SPSC.pop q).1 = none → (SPSC.pop q).2 = q))) := by
  refine ⟨?_, ?_, ?_⟩
  · have hwf : SPSC.wf (SPSC.emptyState a₀) := by
      constructor <;> simp [SPSC.emptyState, SPSC.ringSize]
    have := (SPSC.runTrace_fifo ops (SPSC.emptyState a₀) hwf).1
    have hempty : SPSC.contents (SPSC.emptyState a₀) = [] := by
      simp [SPSC.contents, SPSC.len, SPSC.emptyState]
    rw [hempty] at this
    simpa using this
  · intro q x hq
    have hiff := SPSC.push_fail_iff q x hq
    have hlen : (SPSC.contents q).length = SPSC.len q := by
      simp [SPSC.contents]
    rw [hlen]
    exact hiff
  · intro q hq
    exact SPSC.pop_empty_iff q hq

/-- Witness for C3 at a concrete interleaving: two accepted pushes, a pop
returning the first record, a failed pop after draining, and the full/empty
characterizations applied at the fresh queue. -/
theorem C3_spsc_fifo_witness :
    ((SPSC.runTrace (SPSC.emptyState (0 : Int))
        [.push 3, .push 7, .pop, .pop, .pop]).2.1 =
      (SPSC.runTrace (SPSC.emptyState (0 : Int))
        [.push 3, .push 7, .pop, .pop, .pop]).2.2 ++
        SPSC.contents (SPSC.runTrace (SPSC.emptyState (0 : Int))
          [.push 3, .push 7, .pop, .pop, .pop]).1) ∧
    (((SPSC.pop (SPSC.emptyState (0 : Int))).1 = none) ↔
      SPSC.contents (SPSC.emptyState (0 : Int)) = []) :=
  ⟨(C3_spsc_fifo (0 : Int) [.push 3, .push 7, .pop, .pop, .pop]).1,
   ((C3_spsc_fifo (0 : Int) []).2.2 (SPSC.emptyState 0)
     (by constructor <;> simp [SPSC.emptyState, SPSC.ringSize])).1⟩

theorem queueOps_fold (ops : List GraphOp) :
    ∀ (s : AuthState) (b : Bool),
      (ops.foldl queueOpsStep (s, b)).1 =
        (ops.foldl queueOpsStep (s, false)).1 ∧
      (ops.foldl queueOpsStep (s, b)).2 =
        (b || ops.any (fun op => op.isTopology)) := by
  induction ops with
  | nil => intro s b; simp
  | cons op rest ih =>
      intro s b
      cases op with
      | updateParams id ps =>
          simpa [queueOpsStep, GraphOp.isTopology] using
            ih { s with paramQueue := s.paramQueue ++ [.updateParams id ps] } b
      | addNode id ty ps =>
          simp only [List.foldl_cons, queueOpsStep, List.any_cons]
          refine ⟨trivial, ?_⟩
          rw [(ih (applyTopologyOp s (.addNode id ty ps)) true).2]
          simp [GraphOp.isTopology]
      | removeNode id =>
          simp only [List.foldl_cons, queueOpsStep, List.any_cons]
          refine ⟨trivial, ?_⟩
          rw [(ih (applyTopologyOp s (.removeNode id)) true).2]
          simp [GraphOp.isTopology]
      | connect f fo t ti =>
          simp only [List.foldl_cons, queueOpsStep, List.any_cons]
          refine ⟨trivial, ?_⟩
          rw [(ih (applyTopologyOp s (.connect f fo t ti)) true).2]
          simp [GraphOp.isTopology]
      | disconnect f fo t ti =>
          simp only [List.foldl_cons, queueOpsStep, List.any_cons]
          refine ⟨trivial, ?_⟩
          rw [(ih (applyTopologyOp s (.disconnect f fo t ti)) true).2]
          simp [GraphOp.isTopology]
      | setOutput id =>
          simp only [List.foldl_cons, queueOpsStep, List.any_cons]
          refine ⟨trivial, ?_⟩
          rw [(ih (applyTopologyOp s (.setOutput id)) true).2]
          simp [GraphOp.isTopology]

/-- C1: a batch containing at least one topology-bearing op publishes
exactly one snapshot, built from the authoritative state after the whole
batch — its connections, output-node id, input-bus bindings, node lookup
and processing order all derive from the final state — and no snapshot
reflecting the state after a proper prefix of the batch (when that state's
snapshot differs from the final one) is ever published. -/
theorem C1_queueOps_publishes_final_once (s : AuthState) (ops : List GraphOp)
    (h : ∃ op ∈ ops, op.isTopology = true) :
    (queueOps s ops).2 = [rebuildSnapshot (queueOps s ops).1] ∧
    (∀ snap ∈ (queueOps s ops).2,
        snap.connections = (queueOps s ops).1.connections ∧
        snap.outputNodeId = (queueOps s ops).1.outputNodeId ∧
        snap.inputNodeId = (queueOps s ops).1.inputNodeId ∧
        snap.inputNodeIds = (queueOps s ops).1.inputNodeIds ∧
        snap.nodeMap = (queueOps s ops).1.nodes ∧
        snap.processingOrder =
          buildProcessingOrder
            ((queueOps s ops).1.nodes.map (fun e => e.1))
            (queueOps s ops).1.connections) ∧
    (∀ (p t : List GraphOp), ops = p ++ t → t ≠ [] →
        rebuildSnapshot (queueOps s p).1 ≠
          rebuildSnapshot (queueOps s ops).1 →
        rebuildSnapshot (queueOps s p).1 ∉ (queueOps s ops).2) := by
  have hany : ops.any (fun op => op.isTopology) = true := by
    rw [List.any_eq_true]
    obtain ⟨op, hop, ht⟩ := h
    exact ⟨op, hop, ht⟩
  have hflag : (ops.foldl queueOpsStep (s, false)).2 = true := by
    rw [(queueOps_fold ops s false).2]
    simpa using hany
  have hpub : (queueOps s ops).2 = [rebuildSnapshot (queueOps s ops).1] := by
    simp only [queueOps, hflag, if_true]
  refine ⟨hpub, ?_, ?_⟩
  · intro snap hsnap
    rw [hpub] at hsnap
    simp only [List.mem_singleton] at hsnap
    subst hsnap
    exact ⟨rfl, rfl, rfl, rfl, rfl, rfl⟩
  · intro p t hsplit ht hne
    rw [hpub]
    simp only [List.mem_singleton]
    exact hne

/-- Witness for C1: the E5-style batch add-gain / set-output publishes
exactly the snapshot of the final authoritative state. -/
theorem C1_queueOps_publishes_final_once_witness :
    (queueOps emptyAuth
        [.addNode "g" "gain" [], .setOutput "g"]).2 =
      [rebuildSnapshot
        (queueOps emptyAuth [.addNode "g" "gain" [], .setOutput "g"]).1] :=
  (C1_queueOps_publishes_final_once emptyAuth
    [.addNode "g" "gain" [], .setOutput "g"]
    ⟨.setOutput "g", by simp, rfl⟩).1

/-! ## Buffer pool (AudioGraph::prepare / acquireBuffer / releaseBuffer,
AudioGraph.cpp 26-71) -/

/-- Buffer pool state: slots, in-use flags, and the prepare-time channel
count and block size used to size grown slots. -/
structure Pool where
  bufferPool : List Buffer
  bufferInUse : List Bool
  numChannels : Nat
  blockSize : Nat
deriving DecidableEq, Repr

/-- Zeroed buffer of the given channel count and capacity
(buf.setSize(channels, capacity) followed by buf.clear()). -/
def zeroBuffer (channels capacity : Nat) : Buffer :=
  ⟨List.replicate channels (List.replicate capacity 0)⟩

/-- Buffer.clear() on an existing buffer: zero every sample, keeping the
allocated shape. -/
def clearBuffer (b : Buffer) : Buffer :=
  ⟨b.channels.map (fun c => List.replicate c.length 0)⟩

/-- Pool part of AudioGraph::prepare — BUFFER_POOL_SIZE = 32 pre-allocated
zeroed slots, all free. -/
def preparePool (channels capacity : Nat) : Pool :=
  { bufferPool := List.replicate 32 (zeroBuffer channels capacity)
    bufferInUse := List.replicate 32 false
    numChannels := channels
    blockSize := capacity }

/-- Scan of the acquire loop: index of the first free slot. -/
def firstFree : List Bool → Option Nat
  | [] => none
  | b :: rest => if b then (firstFree rest).map (fun i => i + 1) else some 0

/-- AudioGraph::acquireBuffer — returns the first free slot's index after
marking it in use and clearing it; when every slot is in use the pool grows
by one zeroed slot (sized from the prepare arguments, already in use) and
that fresh index is returned. There is no failure path. -/
def acquireBuffer (p : Pool) : Nat × Pool :=
  match firstFree p.bufferInUse with
  | some i =>
      (i, { p with
              bufferInUse := p.bufferInUse.set i true
              bufferPool := p.bufferPool.set i
                (clearBuffer (p.bufferPool.getD i ⟨[]⟩)) })
  | none =>
      (p.bufferPool.length,
       { p with
           bufferPool := p.bufferPool ++
             [zeroBuffer p.numChannels p.blockSize]
           bufferInUse := p.bufferInUse ++ [true] })

/-- AudioGraph::releaseBuffer — frees an in-range slot, ignores the rest. -/
def releaseBuffer (p : Pool) (i : Int) : Pool :=
  if 0 ≤ i ∧ i < (p.bufferInUse.length : Int) then
    { p with bufferInUse := p.bufferInUse.set i.toNat false }
  else p

/-- Pool reset at block start (std::fill of bufferInUse with false). -/
def resetPool (p : Pool) : Pool :=
  { p with bufferInUse := p.bufferInUse.map (fun _ => false) }

/-- Pool whose slots all carry the prepare-time shape. -/
def wfPool (ch cap : Nat) (p : Pool) : Prop :=
  p.bufferPool.length = p.bufferInUse.length ∧
  p.numChannels = ch ∧ p.blockSize = cap ∧
  ∀ b ∈ p.bufferPool, b.channels.length = ch ∧
    ∀ c ∈ b.channels, c.length = cap

instance decWfPool (ch cap : Nat) (p : Pool) : Decidable (wfPool ch cap p) := by
  unfold wfPool
  infer_instance

/-- Run of n consecutive acquire calls, collecting the returned indices. -/
def acquireSeq (p : Pool) : Nat → List Nat × Pool
  | 0 => ([], p)
  | n + 1 =>
      let r := acquireBuffer p
      let t := acquireSeq r.2 n
      (r.1 :: t.1, t.2)

theorem firstFree_spec (l : List Bool) :
    ∀ i, firstFree l = some i →
      i < l.length ∧ l.getD i true = false ∧
      ∀ j, j < i → l.getD j true = true := by
  induction l with
  | nil => intro i h; simp [firstFree] at h
  | cons b rest ih =>
      intro i h
      cases hb : b with
      | false =>
          simp [firstFree, hb] at h
          subst h
          simp
      | true =>
          simp only [firstFree, hb, if_true, Option.map_eq_some'] at h
          obtain ⟨j, hj, rfl⟩ := h
          obtain ⟨h1, h2, h3⟩ := ih j hj
          refine ⟨by simpa using h1, by simpa using h2, ?_⟩
          intro k hk
          cases k with
          | zero => simp [hb]
          | succ m =>
              simp only [List.getD_cons_succ]
              exact h3 m (by omega)

theorem firstFree_none (l : List Bool) :
    firstFree l = none ↔ ∀ j, j < l.length → l.getD j true = true := by
  induction l with
  | nil => simp [firstFree]
  | cons b rest ih =>
      cases hb : b with
      | false =>
          simp only [firstFree, if_false]
          constructor
          · intro h; simp at h
          · intro h
            have := h 0 (by simp)
            simp at this
      | true =>
          simp only [firstFree, if_true]
          constructor
          · intro h j hj
            cases j with
            | zero => simp
            | succ m =>
                simp only [Option.map_eq_none'] at h
                simp only [List.getD_cons_succ]
                exact ih.1 h m (by simpa using hj)
          · intro h
            simp only [Option.map_eq_none']
            apply ih.2
            intro m hm
            have := h (m + 1) (by simpa using hm)
            simpa using this

theorem acquireBuffer_fresh (p : Pool)
    (hlen : p.bufferPool.length = p.bufferInUse.length) :
    p.bufferInUse.getD (acquireBuffer p).1 false = false ∧
    (acquireBuffer p).2.bufferInUse.getD (acquireBuffer p).1 false = true ∧
    (∀ j, p.bufferInUse.getD j false = true →
      (acquireBuffer p).2.bufferInUse.getD j false = true) ∧
    (acquireBuffer p).2.bufferPool.length =
      (acquireBuffer p).2.bufferInUse.length := by
  cases hf : firstFree p.bufferInUse with
  | some i =>
      obtain ⟨hi, hfree, _⟩ := firstFree_spec p.bufferInUse i hf
      have hfree' : p.bufferInUse.getD i false = false := by
        rw [List.getD_eq_getElem?_getD] at hfree ⊢
        cases hg : p.bufferInUse[i]? with
        | none =>
            rw [hg] at hfree
            simp at hfree
        | some v =>
            rw [hg] at hfree
            simpa using hfree
      refine ⟨?_, ?_, ?_, ?_⟩
      · simpa [acquireBuffer, hf] using hfree'
      · simp only [acquireBuffer, hf]
        rw [List.getD_eq_getElem?_getD, List.getElem?_set_self (by omega)]
        rfl
      · intro j hj
        simp only [acquireBuffer, hf]
        by_cases hij : j = i
        · subst hij
          rw [List.getD_eq_getElem?_getD, List.getElem?_set_self (by omega)]
          rfl
        · rw [List.getD_eq_getElem?_getD, List.getElem?_set_ne
            (by omega)]
          rw [List.getD_eq_getElem?_getD] at hj
          exact hj
      · simp [acquireBuffer, hf, hlen]
  | none =>
      have hall := (firstFree_none p.bufferInUse).1 hf
      refine ⟨?_, ?_, ?_, ?_⟩
      · simp only [acquireBuffer, hf]
        rw [List.getD_eq_getElem?_getD]
        have : p.bufferInUse[p.bufferPool.length]? = none := by
          rw [List.getElem?_eq_none_iff]
          omega
        simp [this]
      · simp only [acquireBuffer, hf]
        rw [List.getD_eq_getElem?_getD]
        rw [List.getElem?_append_right (by omega)]
        simp [hlen]
      · intro j hj
        simp only [acquireBuffer, hf]
        have hjlt : j < p.bufferInUse.length := by
          by_contra hge
          rw [List.getD_eq_getElem?_getD, List.getElem?_eq_none_iff.2
            (by omega)] at hj
          simp at hj
        rw [List.getD_eq_getElem?_getD, List.getElem?_append_left hjlt]
        rw [List.getD_eq_getElem?_getD] at hj
        exact hj
      · simp [acquireBuffer, hf, hlen]

theorem acquireBuffer_zero (ch cap : Nat) (p : Pool) (h : wfPool ch cap p) :
    (acquireBuffer p).2.bufferPool.getD (acquireBuffer p).1 ⟨[]⟩ =
      zeroBuffer ch cap ∧ wfPool ch cap (acquireBuffer p).2 := by
  obtain ⟨hlen, hch, hcap, hshape⟩ := h
  cases hf : firstFree p.bufferInUse with
  | some i =>
      obtain ⟨hi, _, _⟩ := firstFree_spec p.bufferInUse i hf
      have hip : i < p.bufferPool.length := by omega
      have hmem : p.bufferPool.getD i ⟨[]⟩ ∈ p.bufferPool := by
        rw [List.getD_eq_getElem?_getD, List.getElem?_eq_getElem hip]
        exact List.getElem_mem hip
      have hclear : clearBuffer (p.bufferPool.getD i ⟨[]⟩) =
          zeroBuffer ch cap := by
        obtain ⟨hc1, hc2⟩ := hshape _ hmem
        unfold clearBuffer zeroBuffer
        congr 1
        rw [List.eq_replicate_iff]
        refine ⟨by simpa using hc1, ?_⟩
        intro b hb
        simp only [List.mem_map] at hb
        obtain ⟨c, hc, rfl⟩ := hb
        rw [hc2 c hc]
      constructor
      · simp only [acquireBuffer, hf]
        rw [List.getD_eq_getElem?_getD, List.getElem?_set_self (by omega)]
        simpa using hclear
      · refine ⟨by simp [acquireBuffer, hf, hlen], by simp [acquireBuffer, hf, hch],
          by simp [acquireBuffer, hf, hcap], ?_⟩
        intro b hb
        simp only [acquireBuffer, hf] at hb
        rcases List.mem_or_eq_of_mem_set hb with hold | hnew
        · exact hshape b hold
        · subst hnew
          rw [hclear]
          unfold zeroBuffer
          constructor
          · simp
          · intro c hc
            simp only [List.mem_replicate] at hc
            rw [hc.2]
            simp
  | none =>
      constructor
      · simp only [acquireBuffer, hf]
        rw [List.getD_eq_getElem?_getD, List.getElem?_append_right (by omega)]
        simp [hch, hcap]
      · refine ⟨by simp [acquireBuffer, hf, hlen], by simp [acquireBuffer, hf, hch],
          by simp [acquireBuffer, hf, hcap], ?_⟩
        intro b hb
        simp only [acquireBuffer, hf, List.mem_append, List.mem_singleton] at hb
        rcases hb with hold | hnew
        · exact hshape b hold
        · subst hnew
          unfold zeroBuffer
          rw [hch, hcap]
          constructor
          · simp
          · intro c hc
            simp only [List.mem_replicate] at hc
            rw [hc.2]
            simp

theorem acquireSeq_not_mem (m : Nat) :
    ∀ (q : Pool) (i : Nat), q.bufferPool.length = q.bufferInUse.length →
      q.bufferInUse.getD i false = true → i ∉ (acquireSeq q m).1 := by
  induction m with
  | zero => intro q i _ _; simp [acquireSeq]
  | succ k ih =>
      intro q i hlen hflag
      obtain ⟨hfresh, _, hmono, hlen'⟩ := acquireBuffer_fresh q hlen
      simp only [acquireSeq, List.mem_cons]
      rintro (heq | hmem)
      · rw [← heq] at hfresh
        rw [hflag] at hfresh
        simp at hfresh
      · exact ih (acquireBuffer q).2 i hlen' (hmono i hflag) hmem

theorem acquireSeq_nodup (n : Nat) :
    ∀ (p : Pool), p.bufferPool.length = p.bufferInUse.length →
      (acquireSeq p n).1.Nodup := by
  induction n with
  | zero => intro p _; simp [acquireSeq]
  | succ k ih =>
      intro p hlen
      obtain ⟨_, hmark, _, hlen'⟩ := acquireBuffer_fresh p hlen
      simp only [acquireSeq, List.nodup_cons]
      exact ⟨acquireSeq_not_mem k (acquireBuffer p).2 (acquireBuffer p).1
        hlen' hmark, ih (acquireBuffer p).2 hlen'⟩

/-- State of the engine's pool after its 32 prepared slots have all been
acquired (prepared for one channel of one sample, to keep the construction
small). -/
def fullPool : Pool := (acquireSeq (preparePool 1 1) 32).2

/-- Counterexample to C7: with every slot in use, acquire does not fail
with Exhausted — it returns the fresh index 32 and grows the pool to 33
slots, and the next exhausted acquire grows it again to 34, so the pool
does not grow just once. -/
theorem C7_acquire_counterexample :
    fullPool.bufferInUse.all (fun b => b) = true ∧
    (acquireBuffer fullPool).1 = 32 ∧
    (acquireBuffer fullPool).2.bufferPool.length = 33 ∧
    (acquireBuffer (acquireBuffer fullPool).2).2.bufferPool.length = 34 := by
  decide

/-- C7 (amended): acquire returns the index of a currently-free slot and
marks it in use, so consecutive acquires return pairwise-distinct indices
until a release or reset; when every slot is in use acquire does not fail:
each such call grows the pool by exactly one slot (so the pool can keep
growing across calls) and returns the fresh slot's index, already in use;
and the lent slot always holds a zeroed buffer with the channel count and
capacity given to prepare. -/
theorem C7_pool_acquire (ch cap n : Nat) (p : Pool) (h : wfPool ch cap p) :
    (acquireSeq p n).1.Nodup ∧
    ((∀ j, j < p.bufferInUse.length → p.bufferInUse.getD j false = true) →
      (acquireBuffer p).1 = p.bufferPool.length ∧
      (acquireBuffer p).2.bufferPool.length = p.bufferPool.length + 1 ∧
      (acquireBuffer p).2.bufferInUse.getD (acquireBuffer p).1 false =
        true) ∧
    (acquireBuffer p).2.bufferPool.getD (acquireBuffer p).1 ⟨[]⟩ =
      zeroBuffer ch cap := by
  have hlen := h.1
  refine ⟨acquireSeq_nodup n p hlen, ?_, (acquireBuffer_zero ch cap p h).1⟩
  intro hall
  have hf : firstFree p.bufferInUse = none := by
    rw [firstFree_none]
    intro j hj
    have := hall j hj
    rw [List.getD_eq_getElem?_getD] at this ⊢
    cases hg : p.bufferInUse[j]? with
    | none => simp
    | some v =>
        rw [hg] at this
        simpa using this
  refine ⟨by simp [acquireBuffer, hf], by simp [acquireBuffer, hf], ?_⟩
  exact (acquireBuffer_fresh p hlen).2.1

/-- Witness for C7: three acquires from a freshly prepared pool return
distinct indices; on the all-in-use pool the exhausted acquire returns the
fresh index; and the first acquire lends a zeroed one-by-one buffer. -/
theorem C7_pool_acquire_witness :
    (acquireSeq (preparePool 1 1) 3).1.Nodup ∧
    (acquireBuffer fullPool).1 = fullPool.bufferPool.length ∧
    (acquireBuffer (preparePool 1 1)).2.bufferPool.getD
        (acquireBuffer (preparePool 1 1)).1 ⟨[]⟩ = zeroBuffer 1 1 :=
  ⟨(C7_pool_acquire 1 1 3 (preparePool 1 1) (by decide)).1,
   ((C7_pool_acquire 1 1 0 fullPool (by decide)).2.1
     (by decide)).1,
   (C7_pool_acquire 1 1 0 (preparePool 1 1) (by decide)).2.2⟩

/-! ## Block processor (AudioGraph::processBlock, AudioGraph.cpp 358-473)

The per-node virtual process calls are passed in as a function from the
node to its block transfer (inputs, pre-assigned output content, numSamples
to the produced output content); the DSP catalogue itself is outside the
claims settled here. Buffer references are embedded by value: the map entry
recorded for a node carries the content its pool slot has after the node's
process call, which is what every later reader of the BufferRef observes
(a slot acquired in a block stays in use for the whole block, so nothing
overwrites it afterwards). The SPSC drain of parameter updates at block
start is represented by the snapshot's nodeMap already carrying the drained
parameter values. -/

/-- Loop of processBlock lines 398-407: a node is an input node when some
input bus binds its id. -/
def isInputNode (snap : GraphSnapshot) (id : String) : Bool :=
  snap.inputNodeIds.any (fun e => e.2 == id)

/-- Growing write of the inputBuffers wiring loop: extend with invalid
(silence) sentinels up to the inlet index, then set it. -/
def setAtGrow (l : List (Option Buffer)) (i : Nat) (v : Option Buffer) :
    List (Option Buffer) :=
  (l ++ List.replicate (i + 1 - l.length) none).set i v

/-- Wiring phase for one node: connections into the node whose source
already has an output, sorted by inlet, written into the input array
(later entries for the same inlet overwrite; negative inlets index
out of bounds in C++ and are not modelled). -/
def wireInputs (snap : GraphSnapshot) (outputs : List (String × Buffer))
    (id : String) : List (Option Buffer) :=
  let found := snap.connections.foldl
    (fun acc c =>
      if c.toNodeId == id then
        match assocFind outputs c.fromNodeId with
        | some b => acc ++ [(c.toInlet, b)]
        | none => acc
      else acc) []
  let sorted := found.mergeSort (fun a b => decide (a.1 ≤ b.1))
  sorted.foldl
    (fun arr e =>
      if e.1 < 0 then arr else setAtGrow arr e.1.toNat (some e.2)) []

/-- Channel loop of the final copy to the host buffer (lines 456-470):
host channels having a matching output channel take its first n samples;
the rest stay untouched. -/
def copyChannels (outs hosts : List (List Val)) (n : Nat) :
    List (List Val) :=
  match outs, hosts with
  | _, [] => []
  | [], h :: hs => h :: copyChannels [] hs n
  | o :: os, h :: hs => copyInto h o n :: copyChannels os hs n

/-- Per-node step of the processBlock loop: skip input nodes; otherwise
acquire a pool slot as the node's output (registering it in nodeOutputs
before wiring, as the C++ does), wire the inputs, dispatch process_bypass
or process, and record the produced content in the slot and the map. -/
def blockStep (snap : GraphSnapshot)
    (procs : Node → List (Option Buffer) → Buffer → Nat → Buffer) (n : Nat)
    (st : List (String × Buffer) × Pool) (id : String) :
    List (String × Buffer) × Pool :=
  if isInputNode snap id then st
  else
    match assocFind snap.nodeMap id with
    | none => st
    | some node =>
        let r := acquireBuffer st.2
        let slot := r.2.bufferPool.getD r.1 ⟨[]⟩
        let outputs1 := assocSet st.1 id slot
        let inputs := wireInputs snap outputs1 id
        let newOut :=
          if isBypassed node.params then
            (processBypass inputs (some slot) n).getD slot
          else procs node inputs slot n
        (assocSet outputs1 id newOut,
         { r.2 with bufferPool := r.2.bufferPool.set r.1 newOut })

/-- AudioGraph::processBlock — early return on an empty processing order;
otherwise reset the pool, pre-populate nodeOutputs with the host buffer
for the bus-0 input node and each bound higher bus's buffer, run the
per-node loop in processing order, and copy the designated output node's
buffer back into the host channels. Returns the host buffer content, the
final nodeOutputs map, and the final pool. -/
def processBlock (snap : GraphSnapshot) (p : Pool)
    (procs : Node → List (Option Buffer) → Buffer → Nat → Buffer)
    (host : Buffer) (hostIns : List (Int × Buffer)) (n : Nat) :
    Buffer × List (String × Buffer) × Pool :=
  if snap.processingOrder.isEmpty then (host, [], p)
  else
    let p0 := resetPool p
    let init0 : List (String × Buffer) :=
      if snap.inputNodeId ≠ "" then [(snap.inputNodeId, host)] else []
    let init1 := snap.inputNodeIds.foldl
      (fun acc e =>
        if e.1 = 0 then acc
        else
          match assocFind hostIns e.1 with
          | some b => assocSet acc e.2 b
          | none => acc) init0
    let final := snap.processingOrder.foldl (blockStep snap procs n)
      (init1, p0)
    let host' :=
      if snap.outputNodeId ≠ "" then
        match assocFind final.1 snap.outputNodeId with
        | some b => Buffer.mk (copyChannels b.channels host.channels n)
        | none => host
      else host
    (host', final.1, final.2)

/-- Pool invariant inside a block: lengths agree, prepare shape recorded,
and every still-free slot has the prepared shape (in-use slots hold
whatever their nodes produced). -/
def wfFree (ch cap : Nat) (p : Pool) : Prop :=
  p.bufferPool.length = p.bufferInUse.length ∧
  p.numChannels = ch ∧ p.blockSize = cap ∧
  ∀ i, i < p.bufferPool.length → p.bufferInUse.getD i false = false →
    (p.bufferPool.getD i ⟨[]⟩).channels.length = ch ∧
    ∀ c ∈ (p.bufferPool.getD i ⟨[]⟩).channels, c.length = cap

theorem resetPool_wfFree (ch cap : Nat) (p : Pool) (h : wfPool ch cap p) :
    wfFree ch cap (resetPool p) := by
  obtain ⟨hlen, hch, hcap, hshape⟩ := h
  refine ⟨by simp [resetPool, hlen], hch, hcap, ?_⟩
  intro i hi _
  have hmem : (resetPool p).bufferPool.getD i ⟨[]⟩ ∈ p.bufferPool := by
    simp only [resetPool] at hi ⊢
    rw [List.getD_eq_getElem?_getD, List.getElem?_eq_getElem hi]
    exact List.getElem_mem hi
  exact hshape _ hmem

theorem acquireBuffer_zero_free (ch cap : Nat) (p : Pool)
    (h : wfFree ch cap p) :
    (acquireBuffer p).2.bufferPool.getD (acquireBuffer p).1 ⟨[]⟩ =
      zeroBuffer ch cap ∧
    (acquireBuffer p).2.bufferInUse.getD (acquireBuffer p).1 false = true ∧
    wfFree ch cap (acquireBuffer p).2 := by
  obtain ⟨hlen, hch, hcap, hshape⟩ := h
  have hmark := (acquireBuffer_fresh p hlen).2.1
  cases hf : firstFree p.bufferInUse with
  | some i =>
      obtain ⟨hi, hfree, _⟩ := firstFree_spec p.bufferInUse i hf
      have hip : i < p.bufferPool.length := by omega
      have hfree' : p.bufferInUse.getD i false = false := by
        rw [List.getD_eq_getElem?_getD] at hfree ⊢
        cases hg : p.bufferInUse[i]? with
        | none =>
            rw [hg] at hfree
            simp at hfree
        | some v =>
            rw [hg] at hfree
            simpa using hfree
      obtain ⟨hc1, hc2⟩ := hshape i hip hfree'
      have hclear : clearBuffer (p.bufferPool.getD i ⟨[]⟩) =
          zeroBuffer ch cap := by
        unfold clearBuffer zeroBuffer
        congr 1
        rw [List.eq_replicate_iff]
        refine ⟨by simpa using hc1, ?_⟩
        intro b hb
        simp only [List.mem_map] at hb
        obtain ⟨c, hc, rfl⟩ := hb
        rw [hc2 c hc]
      refine ⟨?_, by simpa [acquireBuffer, hf] using hmark, ?_⟩
      · simp only [acquireBuffer, hf]
        rw [List.getD_eq_getElem?_getD, List.getElem?_set_self (by omega)]
        simpa using hclear
      · refine ⟨by simp [acquireBuffer, hf, hlen],
          by simp [acquireBuffer, hf, hch],
          by simp [acquireBuffer, hf, hcap], ?_⟩
        intro j hj hjfree
        simp only [acquireBuffer, hf] at hj hjfree ⊢
        by_cases hij : j = i
        · subst hij
          rw [List.getD_eq_getElem?_getD,
            List.getElem?_set_self (by omega)] at hjfree
          simp at hjfree
        · rw [List.getD_eq_getElem?_getD,
            List.getElem?_set_ne (by omega)] at hjfree ⊢
          rw [← List.getD_eq_getElem?_getD] at hjfree ⊢
          have hjlt : j < p.bufferPool.length := by
            simpa using hj
          exact hshape j hjlt hjfree
  | none =>
      refine ⟨?_, by simpa [acquireBuffer, hf] using hmark, ?_⟩
      · simp only [acquireBuffer, hf]
        rw [List.getD_eq_getElem?_getD, List.getElem?_append_right (by omega)]
        simp [hch, hcap]
      · refine ⟨by simp [acquireBuffer, hf, hlen],
          by simp [acquireBuffer, hf, hch],
          by simp [acquireBuffer, hf, hcap], ?_⟩
        intro j hj hjfree
        simp only [acquireBuffer, hf] at hj hjfree ⊢
        have hjlen : j < p.bufferPool.length + 1 := by simpa using hj
        by_cases hjp : j < p.bufferPool.length
        · rw [List.getD_eq_getElem?_getD,
            List.getElem?_append_left (by omega)] at hjfree ⊢
          rw [← List.getD_eq_getElem?_getD] at hjfree ⊢
          exact hshape j hjp hjfree
        · have hje : j = p.bufferPool.length := by omega
          subst hje
          rw [List.getD_eq_getElem?_getD,
            List.getElem?_append_right (by omega)] at hjfree
          simp [hlen] at hjfree

theorem assocFind_assocSet_self {κ α : Type} [DecidableEq κ]
    (l : List (κ × α)) (k : κ) (v : α) :
    assocFind (assocSet l k v) k = some v := by
  induction l with
  | nil => simp [assocSet, assocFind]
  | cons hd tl ih =>
      by_cases h : hd.1 = k
      · simp [assocSet, h, assocFind]
      · simp [assocSet, h, assocFind, ih]

theorem assocFind_assocSet_ne {κ α : Type} [DecidableEq κ]
    (l : List (κ × α)) (k k' : κ) (v : α) (h : k' ≠ k) :
    assocFind (assocSet l k' v) k = assocFind l k := by
  induction l with
  | nil => simp [assocSet, assocFind, h]
  | cons hd tl ih =>
      by_cases hh : hd.1 = k'
      · simp [assocSet, hh, assocFind, h]
      · simp [assocSet, hh, assocFind, ih]

theorem blockStep_wfFree (ch cap n : Nat) (snap : GraphSnapshot)
    (procs : Node → List (Option Buffer) → Buffer → Nat → Buffer)
    (st : List (String × Buffer) × Pool) (id : String)
    (h : wfFree ch cap st.2) :
    wfFree ch cap (blockStep snap procs n st id).2 := by
  unfold blockStep
  split
  · exact h
  · split
    · exact h
    · obtain ⟨hz, hmark, hwf⟩ := acquireBuffer_zero_free ch cap st.2 h
      obtain ⟨hlen, hch, hcap, hshape⟩ := hwf
      refine ⟨by simpa using hlen, by simpa using hch,
        by simpa using hcap, ?_⟩
      intro j hj hjfree
      simp only [List.length_set] at hj
      have hne : j ≠ (acquireBuffer st.2).1 := by
        intro he
        subst he
        simp only at hjfree
        rw [List.getD_eq_getElem?_getD] at hjfree hmark
        rw [hjfree] at hmark
        simp at hmark
      simp only at hjfree ⊢
      rw [List.getD_eq_getElem?_getD,
        List.getElem?_set_ne (by omega)]
      rw [← List.getD_eq_getElem?_getD]
      exact hshape j hj hjfree

theorem foldl_blockStep_wfFree (ch cap n : Nat) (snap : GraphSnapshot)
    (procs : Node → List (Option Buffer) → Buffer → Nat → Buffer)
    (l : List String) :
    ∀ (st : List (String × Buffer) × Pool), wfFree ch cap st.2 →
      wfFree ch cap (l.foldl (blockStep snap procs n) st).2 := by
  induction l with
  | nil => intro st h; exact h
  | cons hd tl ih =>
      intro st h
      exact ih _ (blockStep_wfFree ch cap n snap procs st hd h)

theorem foldl_blockStep_preserve (snap : GraphSnapshot)
    (procs : Node → List (Option Buffer) → Buffer → Nat → Buffer) (n : Nat)
    (id : String) (l : List String) (hl : id ∉ l) :
    ∀ (st : List (String × Buffer) × Pool),
      assocFind (l.foldl (blockStep snap procs n) st).1 id =
        assocFind st.1 id := by
  induction l with
  | nil => intro st; rfl
  | cons hd tl ih =>
      intro st
      have hne : hd ≠ id := by
        intro he
        exact hl (by simp [he])
      have htl : id ∉ tl := fun hmem => hl (by simp [hmem])
      rw [List.foldl_cons, ih htl]
      unfold blockStep
      split
      · rfl
      · split
        · rfl
        · simp only
          rw [assocFind_assocSet_ne _ _ _ _ hne,
            assocFind_assocSet_ne _ _ _ _ hne]

/-- C10: acquireBuffer always lends a slot cleared to all zeros, sized to
the prepared channel count and capacity; every non-input node of the
processing order receives such a slot as its output at acquisition time,
so a node whose dispatched process call writes nothing for the block
(returns its output unchanged, as GainNode::process does when inlet 0 is
unwired or invalid) ends the block with an all-zero (silent) output
buffer in the per-block node-output map. -/
theorem C10_unwritten_outputs_silent
    (ch cap n : Nat) (snap : GraphSnapshot) (p : Pool)
    (procs : Node → List (Option Buffer) → Buffer → Nat → Buffer)
    (host : Buffer) (hostIns : List (Int × Buffer))
    (hwf : wfPool ch cap p)
    (hnodup : snap.processingOrder.Nodup)
    (id : String) (hid : id ∈ snap.processingOrder)
    (hni : isInputNode snap id = false)
    (node : Node) (hnode : assocFind snap.nodeMap id = some node)
    (hbp : isBypassed node.params = false)
    (hproc : ∀ ins out k, procs node ins out k = out) :
    (∀ (q : Pool), wfFree ch cap q →
        (acquireBuffer q).2.bufferPool.getD (acquireBuffer q).1 ⟨[]⟩ =
          zeroBuffer ch cap) ∧
    assocFind (processBlock snap p procs host hostIns n).2.1 id =
      some (zeroBuffer ch cap) := by
  refine ⟨fun q hq => (acquireBuffer_zero_free ch cap q hq).1, ?_⟩
  obtain ⟨l1, l2, horder⟩ := List.append_of_mem hid
  have hl2 : id ∉ l2 := by
    rw [horder] at hnodup
    have := (List.nodup_cons.1 hnodup.of_append_right).1
    exact this
  have hie : snap.processingOrder.isEmpty = false := by
    rw [horder]
    simp
  have hkey : ∀ (st : List (String × Buffer) × Pool), wfFree ch cap st.2 →
      assocFind
        ((l1 ++ id :: l2).foldl (blockStep snap procs n) st).1 id =
        some (zeroBuffer ch cap) := by
    intro st hst
    rw [List.foldl_append, List.foldl_cons]
    have hst1 : wfFree ch cap (l1.foldl (blockStep snap procs n) st).2 :=
      foldl_blockStep_wfFree ch cap n snap procs l1 st hst
    rw [foldl_blockStep_preserve snap procs n id l2 hl2]
    obtain ⟨hz, hmark, hwf'⟩ :=
      acquireBuffer_zero_free ch cap (l1.foldl (blockStep snap procs n) st).2
        hst1
    simp only [blockStep, hni, Bool.false_eq_true, if_false, hnode]
    simp only [hbp, Bool.false_eq_true, if_false]
    rw [hproc, assocFind_assocSet_self, hz]
  have hp0 : wfFree ch cap (resetPool p) := resetPool_wfFree ch cap p hwf
  simp only [processBlock, hie, Bool.false_eq_true, if_false]
  rw [horder]
  exact hkey _ hp0

/-- Witness for C10 at a one-node graph whose gain node's process writes
nothing: its recorded output buffer is the zeroed two-sample mono slot. -/
theorem C10_unwritten_outputs_silent_witness :
    assocFind
      (processBlock
        ⟨["g"], [], "", "", [], [("g", ⟨"g", "gain", []⟩)]⟩
        (preparePool 1 2) (fun _ _ out _ => out) ⟨[[1, 2]]⟩ [] 2).2.1
      "g" = some (zeroBuffer 1 2) :=
  (C10_unwritten_outputs_silent 1 2 2
    ⟨["g"], [], "", "", [], [("g", ⟨"g", "gain", []⟩)]⟩
    (preparePool 1 2) (fun _ _ out _ => out) ⟨[[1, 2]]⟩ []
    (by decide) (by simp) "g" (by simp) rfl ⟨"g", "gain", []⟩ rfl rfl
    (fun _ _ _ => rfl)).2

/-! ## Scheduler theory

Characterization of buildProcessingOrder: in-degree accounting, the Kahn
loop invariant, and the cycle analysis. `connsF` is the connection list
restricted to connections whose two endpoints exist in the node map —
exactly the connections the C++ code counts. -/

/-- Connections whose endpoints both exist (the scheduler ignores the
rest). -/
def connsF (nodeIds : List String) (conns : List Connection) :
    List Connection :=
  conns.filter
    (fun c => nodeIds.contains c.toNodeId && nodeIds.contains c.fromNodeId)

/-- Total in-degree of x over an edge list. -/
def countTo (E : List Connection) (x : String) : Nat :=
  (E.filter (fun c => c.toNodeId == x)).length

/-- In-edges of x whose source has already been popped (is in S). -/
def countFromIn (E : List Connection) (S : List String) (x : String) : Nat :=
  (E.filter (fun c => c.toNodeId == x && S.contains c.fromNodeId)).length

/-- Adjacency multiset of x: targets of its out-edges, in edge-list
order. -/
def adjTargets (E : List Connection) (x : String) : List String :=
  (E.filter (fun c => c.fromNodeId == x)).map (fun c => c.toNodeId)

theorem length_filter_le_of_imp {α : Type} (l : List α) (p r : α → Bool)
    (h : ∀ a ∈ l, p a = true → r a = true) :
    (l.filter p).length ≤ (l.filter r).length := by
  induction l with
  | nil => simp
  | cons a t ih =>
      have ht : ∀ b ∈ t, p b = true → r b = true :=
        fun b hb => h b (by simp [hb])
      cases hp : p a with
      | true =>
          rw [List.filter_cons_of_pos (show p a = true from hp),
            List.filter_cons_of_pos (h a (by simp) hp)]
          simpa using ih ht
      | false =>
          rw [List.filter_cons_of_neg (show ¬ p a = true by simp [hp])]
          cases hr : r a with
          | true =>
              rw [List.filter_cons_of_pos (show r a = true from hr)]
              exact (ih ht).trans (by simp)
          | false =>
              rw [List.filter_cons_of_neg (show ¬ r a = true by simp [hr])]
              exact ih ht

theorem all_of_filter_length_le {α : Type} (l : List α) (p r : α → Bool)
    (h : ∀ a ∈ l, p a = true → r a = true)
    (hle : (l.filter r).length ≤ (l.filter p).length) :
    ∀ a ∈ l, r a = true → p a = true := by
  induction l with
  | nil => simp
  | cons a t ih =>
      have ht : ∀ b ∈ t, p b = true → r b = true :=
        fun b hb => h b (by simp [hb])
      intro b hb hrb
      cases hp : p a with
      | true =>
          rw [List.filter_cons_of_pos (show p a = true from hp),
            List.filter_cons_of_pos (h a (by simp) hp)] at hle
          simp only [List.length_cons, Nat.add_le_add_iff_right] at hle
          rcases List.mem_cons.1 hb with rfl | hbt
          · exact hp
          · exact ih ht hle b hbt hrb
      | false =>
          rw [List.filter_cons_of_neg (show ¬ p a = true by simp [hp])]
            at hle
          cases hr : r a with
          | true =>
              rw [List.filter_cons_of_pos (show r a = true from hr)] at hle
              have := length_filter_le_of_imp t p r ht
              simp only [List.length_cons] at hle
              omega
          | false =>
              rw [List.filter_cons_of_neg (show ¬ r a = true by simp [hr])]
                at hle
              rcases List.mem_cons.1 hb with rfl | hbt
              · rw [hr] at hrb; exact absurd hrb (by simp)
              · exact ih ht hle b hbt hrb

theorem exists_of_filter_length_lt {α : Type} (l : List α) (p r : α → Bool)
    (_h : ∀ a ∈ l, p a = true → r a = true)
    (hlt : (l.filter p).length < (l.filter r).length) :
    ∃ a ∈ l, r a = true ∧ p a = false := by
  by_contra hno
  push_neg at hno
  have : ∀ a ∈ l, r a = true → p a = true := by
    intro a ha hra
    cases hpa : p a with
    | true => rfl
    | false => exact absurd hpa (hno a ha hra)
  have := length_filter_le_of_imp l r p this
  omega

theorem countFromIn_le_countTo (E : List Connection) (S : List String)
    (x : String) : countFromIn E S x ≤ countTo E x := by
  unfold countFromIn countTo
  apply length_filter_le_of_imp
  intro c _ hc
  simp only [Bool.and_eq_true] at hc
  exact hc.1

/-! Map-representation lemmas: the degree list is always
`nodeIds.map (fun x => (x, f x))` for an evolving in-degree function f. -/

theorem assocFind_map_mem (ids : List String) (f : String → Int)
    (x : String) (hx : x ∈ ids) :
    assocFind (ids.map (fun y => (y, f y))) x = some (f x) := by
  induction ids with
  | nil => simp at hx
  | cons a t ih =>
      by_cases hax : a = x
      · subst hax
        simp [assocFind]
      · rcases List.mem_cons.1 hx with rfl | hxt
        · exact absurd rfl hax
        · simp [assocFind, hax, ih hxt]

theorem assocFind_map_not_mem (ids : List String) (f : String → Int)
    (x : String) (hx : x ∉ ids) :
    assocFind (ids.map (fun y => (y, f y))) x = none := by
  induction ids with
  | nil => rfl
  | cons a t ih =>
      have hax : a ≠ x := fun he => hx (by simp [he])
      have hxt : x ∉ t := fun hm => hx (by simp [hm])
      simp [assocFind, hax, ih hxt]

theorem assocSet_map_mem (ids : List String) (hnd : ids.Nodup)
    (f : String → Int) (k : String) (hk : k ∈ ids) (v : Int) :
    assocSet (ids.map (fun y => (y, f y))) k v =
      ids.map (fun y => (y, if y = k then v else f y)) := by
  induction ids with
  | nil => simp at hk
  | cons a t ih =>
      have hnd' := (List.nodup_cons.1 hnd).2
      have hna := (List.nodup_cons.1 hnd).1
      by_cases hak : a = k
      · subst hak
        simp [assocSet]
        intro y hy
        have hya : y ≠ a := fun he => hna (he ▸ hy)
        simp [hya]
      · rcases List.mem_cons.1 hk with rfl | hkt
        · exact absurd rfl hak
        · simp [assocSet, hak, ih hnd' hkt]

theorem contains_iff (l : List String) (x : String) :
    l.contains x = true ↔ x ∈ l := by
  simp [List.contains]

theorem posWeight_append (l₁ l₂ : List (String × Int)) :
    posWeight (l₁ ++ l₂) = posWeight l₁ + posWeight l₂ := by
  simp [posWeight]

theorem assocSet_append_fresh {κ α : Type} [DecidableEq κ]
    (l : List (κ × α)) (k : κ) (v : α) (h : assocFind l k = none) :
    assocSet l k v = l ++ [(k, v)] := by
  induction l with
  | nil => rfl
  | cons hd tl ih =>
      by_cases hk : hd.1 = k
      · simp [assocFind, hk] at h
      · simp only [assocFind, if_neg hk] at h
        simp [assocSet, hk, ih h]

theorem posWeight_assocSet (l : List (String × Int)) (k : String) (v : Int) :
    posWeight (assocSet l k v) + ((assocFind l k).getD 0).toNat =
      posWeight l + v.toNat := by
  induction l with
  | nil => simp [assocSet, assocFind, posWeight]
  | cons hd tl ih =>
      obtain ⟨k', w⟩ := hd
      by_cases hk : k' = k
      · simp [assocSet, assocFind, hk, posWeight]
        omega
      · simp only [assocSet, if_neg hk, assocFind]
        simp only [posWeight, List.map_cons, List.sum_cons] at ih ⊢
        omega

theorem decNeighbors_bound (ns : List String) :
    ∀ (deg : List (String × Int)),
      (decNeighbors deg ns).2.length + posWeight (decNeighbors deg ns).1 ≤
        posWeight deg := by
  induction ns with
  | nil => intro deg; simp [decNeighbors]
  | cons nb rest ih =>
      intro deg
      have hps := posWeight_assocSet deg nb (((assocFind deg nb).getD 0) - 1)
      have hih := ih (assocSet deg nb (((assocFind deg nb).getD 0) - 1))
      simp only [decNeighbors, List.length_append]
      by_cases hv : ((assocFind deg nb).getD 0) - 1 = 0
      · simp only [if_pos hv, List.length_singleton]
        omega
      · simp only [if_neg hv, List.length_nil]
        omega

theorem decNeighbors_subset (ns : List String) :
    ∀ (deg : List (String × Int)) (x : String),
      x ∈ (decNeighbors deg ns).2 → x ∈ ns := by
  induction ns with
  | nil => intro deg x h; simp [decNeighbors] at h
  | cons nb rest ih =>
      intro deg x h
      simp only [decNeighbors, List.mem_append] at h
      rcases h with h | h
      · by_cases hv : ((assocFind deg nb).getD 0) - 1 = 0
        · simp [if_pos hv] at h
          simp [h]
        · simp [if_neg hv] at h
      · exact List.mem_cons_of_mem nb (ih _ x h)

/-- Edge multiplicity from a to b. -/
def countEdge (E : List Connection) (a b : String) : Nat :=
  (E.filter (fun c => c.fromNodeId == a && c.toNodeId == b)).length

theorem adjTargets_count (E : List Connection) (a b : String) :
    (adjTargets E a).count b = countEdge E a b := by
  induction E with
  | nil => rfl
  | cons c rest ih =>
      unfold adjTargets countEdge at *
      by_cases hf : c.fromNodeId = a
      · rw [List.filter_cons_of_pos (by simp [hf])]
        by_cases ht : c.toNodeId = b
        · rw [List.filter_cons_of_pos (by simp [hf, ht])]
          simp only [List.map_cons, List.length_cons]
          rw [List.count_cons]
          simp [ht, ih]
        · rw [List.filter_cons_of_neg (by simp [hf, ht])]
          simp only [List.map_cons]
          rw [List.count_cons]
          simp [ht, ih]
      · rw [List.filter_cons_of_neg (by simp [hf]),
          List.filter_cons_of_neg (by simp [hf])]
        exact ih

theorem exists_edge_of_mem_adjTargets (E : List Connection) (a b : String)
    (h : b ∈ adjTargets E a) :
    ∃ c ∈ E, c.fromNodeId = a ∧ c.toNodeId = b := by
  unfold adjTargets at h
  simp only [List.mem_map, List.mem_filter] at h
  obtain ⟨c, ⟨hc, hf⟩, ht⟩ := h
  exact ⟨c, hc, by simpa using hf, ht⟩

theorem countFromIn_nil (E : List Connection) (x : String) :
    countFromIn E [] x = 0 := by
  unfold countFromIn
  induction E with
  | nil => rfl
  | cons c rest ih => simp [List.filter_cons, ih]

theorem countFromIn_append_singleton (E : List Connection)
    (order : List String) (id x : String) (hid : id ∉ order) :
    countFromIn E (order ++ [id]) x =
      countFromIn E order x + countEdge E id x := by
  unfold countFromIn countEdge
  induction E with
  | nil => rfl
  | cons c rest ih =>
      by_cases ht : c.toNodeId = x
      · by_cases hfo : c.fromNodeId ∈ order
        · have hni : c.fromNodeId ≠ id := fun he => hid (he ▸ hfo)
          rw [@List.filter_cons_of_pos Connection (fun c => c.toNodeId == x && (order ++ [id]).contains c.fromNodeId) c rest (by simp [ht, hfo]),
            @List.filter_cons_of_pos Connection (fun c => c.toNodeId == x && order.contains c.fromNodeId) c rest (by simp [ht, hfo]),
            @List.filter_cons_of_neg Connection (fun c => c.fromNodeId == id && c.toNodeId == x) c rest (by simp [hni])]
          simp only [List.length_cons]
          omega
        · by_cases hfi : c.fromNodeId = id
          · rw [@List.filter_cons_of_pos Connection (fun c => c.toNodeId == x && (order ++ [id]).contains c.fromNodeId) c rest (by simp [ht, hfi]),
              @List.filter_cons_of_neg Connection (fun c => c.toNodeId == x && order.contains c.fromNodeId) c rest (by simp [hfo]),
              @List.filter_cons_of_pos Connection (fun c => c.fromNodeId == id && c.toNodeId == x) c rest (by simp [ht, hfi])]
            simp only [List.length_cons]
            omega
          · rw [@List.filter_cons_of_neg Connection (fun c => c.toNodeId == x && (order ++ [id]).contains c.fromNodeId) c rest (by simp [hfo, hfi]),
              @List.filter_cons_of_neg Connection (fun c => c.toNodeId == x && order.contains c.fromNodeId) c rest (by simp [hfo]),
              @List.filter_cons_of_neg Connection (fun c => c.fromNodeId == id && c.toNodeId == x) c rest (by simp [hfi])]
            exact ih
      · rw [@List.filter_cons_of_neg Connection (fun c => c.toNodeId == x && (order ++ [id]).contains c.fromNodeId) c rest (by simp [ht]),
          @List.filter_cons_of_neg Connection (fun c => c.toNodeId == x && order.contains c.fromNodeId) c rest (by simp [ht]),
          @List.filter_cons_of_neg Connection (fun c => c.fromNodeId == id && c.toNodeId == x) c rest (by simp [ht])]
        exact ih

theorem decNeighbors_map (nodeIds : List String) (hnd : nodeIds.Nodup)
    (ns : List String) :
    ∀ (f : String → Int), (∀ x ∈ ns, x ∈ nodeIds) →
      (decNeighbors (nodeIds.map (fun x => (x, f x))) ns).1 =
        nodeIds.map (fun x => (x, f x - (ns.count x : Int))) ∧
      (∀ x, x ∈ (decNeighbors (nodeIds.map (fun x => (x, f x))) ns).2 ↔
        (1 ≤ f x ∧ f x - (ns.count x : Int) ≤ 0)) ∧
      (decNeighbors (nodeIds.map (fun x => (x, f x))) ns).2.Nodup := by
  induction ns with
  | nil =>
      intro f _
      refine ⟨by simp [decNeighbors], ?_, by simp [decNeighbors]⟩
      intro x
      simp [decNeighbors]
      omega
  | cons nb rest ih =>
      intro f hmem
      have hnb : nb ∈ nodeIds := hmem nb (by simp)
      have hfind : assocFind (nodeIds.map (fun x => (x, f x))) nb =
          some (f nb) := assocFind_map_mem nodeIds f nb hnb
      have hset : assocSet (nodeIds.map (fun x => (x, f x))) nb (f nb - 1) =
          nodeIds.map (fun x => (x, if x = nb then f nb - 1 else f x)) :=
        assocSet_map_mem nodeIds hnd f nb hnb (f nb - 1)
      obtain ⟨h1, h2, h3⟩ := ih (fun x => if x = nb then f nb - 1 else f x)
        (fun x hx => hmem x (by simp [hx]))
      have hstep : decNeighbors (nodeIds.map (fun x => (x, f x)))
          (nb :: rest) =
          ((decNeighbors (nodeIds.map
              (fun x => (x, if x = nb then f nb - 1 else f x))) rest).1,
           (if f nb - 1 = 0 then [nb] else []) ++
            (decNeighbors (nodeIds.map
              (fun x => (x, if x = nb then f nb - 1 else f x))) rest).2) := by
        simp only [decNeighbors, hfind, Option.getD_some, hset]
      refine ⟨?_, ?_, ?_⟩
      · rw [hstep]
        simp only [h1]
        apply List.map_congr_left
        intro y hy
        by_cases hynb : y = nb
        · subst hynb
          simp [List.count_cons]
          omega
        · simp [List.count_cons, hynb]
      · intro x
        rw [hstep]
        simp only [List.mem_append, h2]
        by_cases hx : x = nb
        · subst hx
          by_cases hz : f x - 1 = 0
          · simp [hz, List.count_cons]
            omega
          · simp [hz, List.count_cons]
            omega
        · have hns : x ∉ (if f nb - 1 = 0 then [nb] else ([] : List String)) := by
            split <;> simp [hx]
          simp only [List.count_cons]
          constructor
          · rintro (hin | hin)
            · exact absurd hin hns
            · simp only [if_neg hx] at hin
              have hxn : ¬ nb = x := fun h => hx h.symm
              refine ⟨hin.1, ?_⟩
              have h5 := hin.2
              simp [hxn, hx]
              omega
          · intro hin
            right
            simp only [if_neg hx]
            have hxn : ¬ nb = x := fun h => hx h.symm
            refine ⟨hin.1, ?_⟩
            have h5 := hin.2
            simp [hxn, hx] at h5
            omega
      · rw [hstep]
        by_cases hz : f nb - 1 = 0
        · simp only [if_pos hz, List.singleton_append, List.nodup_cons]
          refine ⟨?_, h3⟩
          rw [h2]
          simp
          omega
        · simpa [if_neg hz] using h3

theorem assocFind_append {κ α : Type} [DecidableEq κ]
    (l₁ l₂ : List (κ × α)) (k : κ) :
    assocFind (l₁ ++ l₂) k =
      match assocFind l₁ k with
      | some v => some v
      | none => assocFind l₂ k := by
  induction l₁ with
  | nil => simp [assocFind]
  | cons hd tl ih =>
      by_cases h : hd.1 = k
      · simp [assocFind, h]
      · simp [assocFind, h, ih]

theorem foldl_assocSet_zero (ids : List String) :
    ∀ (acc : List (String × Int)), ids.Nodup →
      (∀ id ∈ ids, assocFind acc id = none) →
      ids.foldl (fun d id => assocSet d id 0) acc =
        acc ++ ids.map (fun id => (id, 0)) := by
  induction ids with
  | nil => intro acc _ _; simp
  | cons a t ih =>
      intro acc hnd hfresh
      have ha := hfresh a (by simp)
      rw [List.foldl_cons, assocSet_append_fresh acc a 0 ha,
        ih (acc ++ [(a, 0)]) (List.nodup_cons.1 hnd).2 ?_]
      · simp
      · intro id hid
        rw [assocFind_append]
        have hne : (a : String) ≠ id :=
          fun he => (List.nodup_cons.1 hnd).1 (he ▸ hid)
        rw [hfresh id (by simp [hid])]
        simp [assocFind, hne]

theorem connsF_cons_pos (nodeIds : List String) (c : Connection)
    (rest : List Connection)
    (h : (nodeIds.contains c.toNodeId && nodeIds.contains c.fromNodeId) =
      true) :
    connsF nodeIds (c :: rest) = c :: connsF nodeIds rest := by
  unfold connsF
  rw [@List.filter_cons_of_pos Connection (fun c => nodeIds.contains c.toNodeId && nodeIds.contains c.fromNodeId) c rest h]

theorem connsF_cons_neg (nodeIds : List String) (c : Connection)
    (rest : List Connection)
    (h : ¬ (nodeIds.contains c.toNodeId && nodeIds.contains c.fromNodeId) =
      true) :
    connsF nodeIds (c :: rest) = connsF nodeIds rest := by
  unfold connsF
  rw [@List.filter_cons_of_neg Connection (fun c => nodeIds.contains c.toNodeId && nodeIds.contains c.fromNodeId) c rest h]

theorem countTo_cons (c : Connection) (E : List Connection) (x : String) :
    countTo (c :: E) x =
      countTo E x + (if c.toNodeId = x then 1 else 0) := by
  unfold countTo
  by_cases h : c.toNodeId = x
  · rw [List.filter_cons_of_pos (by simp [h]), if_pos h]
    simp
  · rw [List.filter_cons_of_neg (by simp [h]), if_neg h]
    simp

theorem adjTargets_cons (c : Connection) (E : List Connection) (x : String) :
    adjTargets (c :: E) x =
      (if c.fromNodeId = x then [c.toNodeId] else []) ++ adjTargets E x := by
  unfold adjTargets
  by_cases h : c.fromNodeId = x
  · rw [List.filter_cons_of_pos (by simp [h]), if_pos h]
    simp
  · rw [List.filter_cons_of_neg (by simp [h]), if_neg h]
    simp

theorem pushAdj_lookup (a : List (String × List String)) (k v x : String) :
    (assocFind (pushAdj a k v) x).getD [] =
      if x = k then (assocFind a k).getD [] ++ [v]
      else (assocFind a x).getD [] := by
  unfold pushAdj
  by_cases h : x = k
  · subst h
    rw [assocFind_assocSet_self]
    simp
  · rw [assocFind_assocSet_ne a x k _ (fun he => h he.symm)]
    simp [h]

theorem degAdj_fold (nodeIds : List String) (hnd : nodeIds.Nodup)
    (conns : List Connection) :
    ∀ (f : String → Int) (a : List (String × List String)),
      (conns.foldl
        (fun p c =>
          if nodeIds.contains c.toNodeId && nodeIds.contains c.fromNodeId
          then (bumpDeg p.1 c.toNodeId, pushAdj p.2 c.fromNodeId c.toNodeId)
          else p)
        (nodeIds.map (fun x => (x, f x)), a)).1 =
        nodeIds.map (fun x =>
          (x, f x + (countTo (connsF nodeIds conns) x : Int))) ∧
      ∀ x,
        (assocFind (conns.foldl
          (fun p c =>
            if nodeIds.contains c.toNodeId && nodeIds.contains c.fromNodeId
            then (bumpDeg p.1 c.toNodeId,
                  pushAdj p.2 c.fromNodeId c.toNodeId)
            else p)
          (nodeIds.map (fun x => (x, f x)), a)).2 x).getD [] =
          (assocFind a x).getD [] ++ adjTargets (connsF nodeIds conns) x := by
  induction conns with
  | nil =>
      intro f a
      constructor
      · simp [connsF, countTo]
      · intro x
        simp [connsF, adjTargets]
  | cons c rest ih =>
      intro f a
      by_cases hc :
          (nodeIds.contains c.toNodeId && nodeIds.contains c.fromNodeId) =
            true
      · have hto : c.toNodeId ∈ nodeIds := by
          have h' := hc
          simp only [Bool.and_eq_true] at h'
          exact (contains_iff _ _).1 h'.1
        have hbump : bumpDeg (nodeIds.map (fun x => (x, f x))) c.toNodeId =
            nodeIds.map (fun x =>
              (x, if x = c.toNodeId then f x + 1 else f x)) := by
          unfold bumpDeg
          rw [assocFind_map_mem nodeIds f c.toNodeId hto]
          simp only [Option.getD_some]
          rw [assocSet_map_mem nodeIds hnd f c.toNodeId hto]
          apply List.map_congr_left
          intro y hy
          by_cases hyt : y = c.toNodeId
          · subst hyt; simp
          · simp [hyt]
        rw [List.foldl_cons, if_pos hc, hbump]
        obtain ⟨ihd, iha⟩ := ih
          (fun x => if x = c.toNodeId then f x + 1 else f x)
          (pushAdj a c.fromNodeId c.toNodeId)
        constructor
        · rw [ihd, connsF_cons_pos nodeIds c rest hc]
          apply List.map_congr_left
          intro y hy
          rw [countTo_cons]
          by_cases hyt : y = c.toNodeId
          · subst hyt
            simp
            omega
          · have : ¬ c.toNodeId = y := fun he => hyt he.symm
            simp [hyt, this]
        · intro x
          rw [iha x, pushAdj_lookup, connsF_cons_pos nodeIds c rest hc,
            adjTargets_cons]
          by_cases hxf : x = c.fromNodeId
          · subst hxf
            simp
          · have : ¬ c.fromNodeId = x := fun he => hxf he.symm
            simp [hxf, this]
      · rw [List.foldl_cons, if_neg hc, connsF_cons_neg nodeIds c rest hc]
        exact ih f a

theorem filter_map_zero (ids : List String) (g : String → Int) :
    ((ids.map (fun x => (x, g x))).filter (fun e => e.2 == 0)).map
      (fun e => e.1) = ids.filter (fun x => g x == 0) := by
  induction ids with
  | nil => rfl
  | cons a t ih =>
      simp only [List.map_cons, List.filter_cons]
      by_cases h : g a = 0
      · simp [h, ih]
      · simp [h, ih]

/-- Characterization of degAdj: the in-degree list is the node list paired
with each node's in-degree over the filtered connections, and the adjacency
lookup returns each node's successor multiset in edge order. -/
theorem degAdj_spec (nodeIds : List String) (conns : List Connection)
    (hnd : nodeIds.Nodup) :
    (degAdj nodeIds conns).1 =
      nodeIds.map (fun x =>
        (x, (countTo (connsF nodeIds conns) x : Int))) ∧
    ∀ x, (assocFind (degAdj nodeIds conns).2 x).getD [] =
      adjTargets (connsF nodeIds conns) x := by
  unfold degAdj
  rw [foldl_assocSet_zero nodeIds [] hnd (fun id _ => rfl)]
  simp only [List.nil_append]
  obtain ⟨h1, h2⟩ := degAdj_fold nodeIds hnd conns (fun _ => 0) []
  constructor
  · rw [h1]
    simp
  · intro x
    rw [h2 x]
    simp [assocFind]

theorem kahnLoop_queue_first (nodeIds : List String)
    (adj : List (String × List String))
    (hadjmem : ∀ x y, y ∈ (assocFind adj x).getD [] → y ∈ nodeIds) :
    ∀ (fuel : Nat) (q : List String) (deg : List (String × Int))
      (order : List String),
      q.length + posWeight deg ≤ fuel →
      (∀ x ∈ q, x ∈ nodeIds) →
      ∃ t, kahnLoop nodeIds adj fuel q deg order = (order ++ q) ++ t := by
  intro fuel
  induction fuel with
  | zero =>
      intro q deg order hfuel hq
      obtain rfl : q = [] := by
        cases q with
        | nil => rfl
        | cons a b => simp at hfuel
      exact ⟨[], by simp [kahnLoop]⟩
  | succ n ih =>
      intro q deg order hfuel hq
      cases q with
      | nil => exact ⟨[], by simp [kahnLoop]⟩
      | cons id rest =>
          have hid : id ∈ nodeIds := hq id (by simp)
          have hcont : nodeIds.contains id = true := (contains_iff _ _).2 hid
          have hbound := decNeighbors_bound ((assocFind adj id).getD []) deg
          obtain ⟨t', ht'⟩ := ih
            (rest ++ (decNeighbors deg ((assocFind adj id).getD [])).2)
            (decNeighbors deg ((assocFind adj id).getD [])).1
            (order ++ [id])
            (by
              simp only [List.length_append]
              simp only [List.length_cons] at hfuel
              omega)
            (by
              intro x hx
              rcases List.mem_append.1 hx with hx | hx
              · exact hq x (by simp [hx])
              · exact hadjmem id x (decNeighbors_subset _ _ x hx))
          refine ⟨(decNeighbors deg ((assocFind adj id).getD [])).2 ++ t', ?_⟩
          simp only [kahnLoop, hcont, if_true]
          rw [ht']
          simp

theorem mem_take_mono {α : Type} (l : List α) (m n : Nat) (h : m ≤ n)
    (x : α) (hx : x ∈ l.take m) : x ∈ l.take n := by
  have : l.take m = (l.take n).take m := by
    rw [List.take_take, Nat.min_eq_left h]
  rw [this] at hx
  exact List.mem_of_mem_take hx

/-- Every connection's source strictly precedes its target: whenever the
target is among the first k+1 entries, the source is among the first k. -/
def strictPrec (E : List Connection) (l : List String) : Prop :=
  ∀ c ∈ E, ∀ k : Nat, c.toNodeId ∈ l.take (k + 1) → c.fromNodeId ∈ l.take k

theorem strictPrec_mem (E : List Connection) (l : List String)
    (hsp : strictPrec E l) (c : Connection) (hc : c ∈ E)
    (ht : c.toNodeId ∈ l) : c.fromNodeId ∈ l := by
  have hl : l ≠ [] := by
    intro he
    rw [he] at ht
    simp at ht
  have hlen : l.length = (l.length - 1) + 1 := by
    cases l with
    | nil => exact absurd rfl hl
    | cons a t => simp
  have ht' : c.toNodeId ∈ l.take ((l.length - 1) + 1) := by
    rw [← hlen, List.take_of_length_le (le_refl _)]
    exact ht
  exact List.mem_of_mem_take (hsp c hc (l.length - 1) ht')

theorem exists_pred_not_mem (E : List Connection) (order : List String)
    (x : String) (hlt : countFromIn E order x < countTo E x) :
    ∃ c ∈ E, c.toNodeId = x ∧ c.fromNodeId ∉ order := by
  unfold countFromIn countTo at hlt
  obtain ⟨c, hc, hr, hp⟩ := exists_of_filter_length_lt E
    (fun c => c.toNodeId == x && order.contains c.fromNodeId)
    (fun c => c.toNodeId == x)
    (by intro a _ ha; simp only [Bool.and_eq_true] at ha; exact ha.1) hlt
  refine ⟨c, hc, by simpa using hr, ?_⟩
  intro hmem
  rw [Bool.eq_false_iff] at hp
  exact hp (by simp [hr, hmem])

theorem all_pred_mem_of_deg_zero (E : List Connection)
    (order : List String) (x : String)
    (hz : (countTo E x : Int) - (countFromIn E order x : Int) = 0) :
    ∀ c ∈ E, c.toNodeId = x → c.fromNodeId ∈ order := by
  have heq : countTo E x ≤ countFromIn E order x := by omega
  unfold countFromIn countTo at heq
  have := all_of_filter_length_le E
    (fun c => c.toNodeId == x && order.contains c.fromNodeId)
    (fun c => c.toNodeId == x)
    (by intro a _ ha; simp only [Bool.and_eq_true] at ha; exact ha.1) heq
  intro c hc ht
  have := this c hc (by simp [ht])
  simp only [Bool.and_eq_true] at this
  exact (contains_iff _ _).1 this.2

theorem kahn_done (nodeIds : List String) (E : List Connection)
    (order : List String) (degf : String → Int)
    (hnodup : order.Nodup) (homem : ∀ x ∈ order, x ∈ nodeIds)
    (hdeg : ∀ x ∈ nodeIds, degf x =
      (countTo E x : Int) - (countFromIn E order x : Int))
    (hzero : ∀ x ∈ nodeIds, (degf x = 0 ↔ x ∈ order))
    (hsp : strictPrec E order)
    (hEmem : ∀ c ∈ E, c.fromNodeId ∈ nodeIds ∧ c.toNodeId ∈ nodeIds) :
    order.Nodup ∧ (∀ x ∈ order, x ∈ nodeIds) ∧ strictPrec E order ∧
    (∀ x ∈ nodeIds, x ∉ order → ∃ c ∈ E, c.toNodeId = x ∧
      c.fromNodeId ∈ nodeIds ∧ c.fromNodeId ∉ order) := by
  refine ⟨hnodup, homem, hsp, ?_⟩
  intro x hx hnot
  have hne : degf x ≠ 0 := fun hz => hnot ((hzero x hx).1 hz)
  have hd := hdeg x hx
  have hle := countFromIn_le_countTo E order x
  have hlt : countFromIn E order x < countTo E x := by omega
  obtain ⟨c, hc, ht, hno⟩ := exists_pred_not_mem E order x hlt
  exact ⟨c, hc, ht, (hEmem c hc).1, hno⟩

theorem kahnLoop_main (nodeIds : List String) (E : List Connection)
    (hnd : nodeIds.Nodup)
    (hEmem : ∀ c ∈ E, c.fromNodeId ∈ nodeIds ∧ c.toNodeId ∈ nodeIds)
    (adj : List (String × List String))
    (hadj : ∀ x, (assocFind adj x).getD [] = adjTargets E x) :
    ∀ (fuel : Nat) (q order : List String) (degf : String → Int),
      q.length + posWeight (nodeIds.map (fun x => (x, degf x))) ≤ fuel →
      (order ++ q).Nodup →
      (∀ x ∈ q, x ∈ nodeIds) →
      (∀ x ∈ order, x ∈ nodeIds) →
      (∀ x ∈ nodeIds, degf x =
        (countTo E x : Int) - (countFromIn E order x : Int)) →
      (∀ x ∈ nodeIds, (degf x = 0 ↔ (x ∈ q ∨ x ∈ order))) →
      strictPrec E order →
      ((kahnLoop nodeIds adj fuel q
          (nodeIds.map (fun x => (x, degf x))) order).Nodup ∧
        (∀ x ∈ kahnLoop nodeIds adj fuel q
          (nodeIds.map (fun x => (x, degf x))) order, x ∈ nodeIds) ∧
        strictPrec E (kahnLoop nodeIds adj fuel q
          (nodeIds.map (fun x => (x, degf x))) order) ∧
        (∀ x ∈ nodeIds,
          x ∉ kahnLoop nodeIds adj fuel q
            (nodeIds.map (fun x => (x, degf x))) order →
          ∃ c ∈ E, c.toNodeId = x ∧ c.fromNodeId ∈ nodeIds ∧
            c.fromNodeId ∉ kahnLoop nodeIds adj fuel q
              (nodeIds.map (fun x => (x, degf x))) order)) := by
  intro fuel
  induction fuel with
  | zero =>
      intro q order degf hfuel hnodup hqmem homem hdeg hzero hsp
      obtain rfl : q = [] := by
        cases q with
        | nil => rfl
        | cons a b => simp at hfuel
      have hres : kahnLoop nodeIds adj 0 []
          (nodeIds.map (fun x => (x, degf x))) order = order := by
        simp [kahnLoop]
      rw [hres]
      exact kahn_done nodeIds E order degf (by simpa using hnodup) homem hdeg
        (fun x hx => by simpa using hzero x hx) hsp hEmem
  | succ n ih =>
      intro q order degf hfuel hnodup hqmem homem hdeg hzero hsp
      cases q with
      | nil =>
          have hres : kahnLoop nodeIds adj (n + 1) []
              (nodeIds.map (fun x => (x, degf x))) order = order := by
            simp [kahnLoop]
          rw [hres]
          exact kahn_done nodeIds E order degf (by simpa using hnodup) homem
            hdeg (fun x hx => by simpa using hzero x hx) hsp hEmem
      | cons id rest =>
          have hid : id ∈ nodeIds := hqmem id (by simp)
          have hcont : nodeIds.contains id = true := (contains_iff _ _).2 hid
          have hdegid : degf id = 0 := (hzero id hid).2 (Or.inl (by simp))
          have hdisj : List.Disjoint order (id :: rest) :=
            List.disjoint_of_nodup_append hnodup
          have hidnotorder : id ∉ order :=
            fun hmem => hdisj hmem (by simp)
          have hnsmem : ∀ x ∈ adjTargets E id, x ∈ nodeIds := by
            intro x hx
            obtain ⟨c, hc, _, ht⟩ := exists_edge_of_mem_adjTargets E id x hx
            exact ht ▸ (hEmem c hc).2
          obtain ⟨hdm1, hdm2, hdm3⟩ :=
            decNeighbors_map nodeIds hnd (adjTargets E id) degf hnsmem
          have hF2 : ∀ c ∈ E, c.toNodeId = id → c.fromNodeId ∈ order := by
            apply all_pred_mem_of_deg_zero E order id
            rw [← hdeg id hid]
            exact hdegid
          have hF4 : ∀ x ∈ nodeIds, degf x = 0 →
              (adjTargets E id).count x = 0 := by
            intro x hx hdx
            by_contra hcz
            have hpos : 0 < (adjTargets E id).count x := Nat.pos_of_ne_zero hcz
            have hxns : x ∈ adjTargets E id := List.count_pos_iff.1 hpos
            obtain ⟨c, hc, hf, ht⟩ :=
              exists_edge_of_mem_adjTargets E id x hxns
            have : c.fromNodeId ∈ order := by
              apply all_pred_mem_of_deg_zero E order x
              · rw [← hdeg x hx]; exact hdx
              · exact hc
              · exact ht
            exact hidnotorder (hf ▸ this)
          have hF5 : ∀ x ∈ nodeIds, 0 ≤ degf x := by
            intro x hx
            have := hdeg x hx
            have := countFromIn_le_countTo E order x
            omega
          -- reduce the goal to the recursive call
          have hb := decNeighbors_bound (adjTargets E id)
            (nodeIds.map (fun x => (x, degf x)))
          rw [hdm1] at hb
          have hstep : kahnLoop nodeIds adj (n + 1) (id :: rest)
              (nodeIds.map (fun x => (x, degf x))) order =
              kahnLoop nodeIds adj n
                (rest ++ (decNeighbors
                  (nodeIds.map (fun x => (x, degf x)))
                  (adjTargets E id)).2)
                (nodeIds.map (fun x =>
                  (x, degf x - ((adjTargets E id).count x : Int))))
                (order ++ [id]) := by
            simp only [kahnLoop, hcont, if_true, hadj id, hdm1]
          rw [hstep]
          apply ih
          · -- fuel bound
            simp only [List.length_append]
            simp only [List.length_cons] at hfuel
            omega
          · -- nodup
            have e1 : (order ++ [id]) ++ (rest ++ (decNeighbors
                (nodeIds.map (fun x => (x, degf x)))
                (adjTargets E id)).2) =
                (order ++ id :: rest) ++ (decNeighbors
                  (nodeIds.map (fun x => (x, degf x)))
                  (adjTargets E id)).2 := by
              simp
            rw [e1, List.nodup_append]
            refine ⟨hnodup, hdm3, ?_⟩
            intro x hx hxq
            have hxz : degf x = 0 := by
              rcases List.mem_append.1 hx with hxo | hxq'
              · exact (hzero x (homem x hxo)).2 (Or.inr hxo)
              · exact (hzero x (hqmem x hxq')).2 (Or.inl hxq')
            have := (hdm2 x).1 hxq
            omega
          · -- queue membership
            intro x hx
            rcases List.mem_append.1 hx with hx | hx
            · exact hqmem x (by simp [hx])
            · have hch := (hdm2 x).1 hx
              have hpos : 0 < (adjTargets E id).count x := by omega
              exact hnsmem x (List.count_pos_iff.1 hpos)
          · -- order membership
            intro x hx
            rcases List.mem_append.1 hx with hx | hx
            · exact homem x hx
            · simp only [List.mem_singleton] at hx
              exact hx ▸ hid
          · -- degree accounting
            intro x hx
            rw [countFromIn_append_singleton E order id x hidnotorder,
              adjTargets_count]
            have := hdeg x hx
            push_cast
            omega
          · -- zero characterization
            intro x hx
            constructor
            · intro hz'
              by_cases hdx : degf x = 0
              · rcases (hzero x hx).1 hdx with hq | ho
                · rcases List.mem_cons.1 hq with rfl | hr
                  · exact Or.inr (by simp)
                  · exact Or.inl (List.mem_append.2 (Or.inl hr))
                · exact Or.inr (List.mem_append.2 (Or.inl ho))
              · have h1 : 1 ≤ degf x := by
                  have := hF5 x hx
                  omega
                have h2 : degf x - ((adjTargets E id).count x : Int) ≤ 0 :=
                  by omega
                exact Or.inl (List.mem_append.2 (Or.inr
                  ((hdm2 x).2 ⟨h1, h2⟩)))
            · intro hmem
              have hz0 : degf x = 0 ∨
                  x ∈ (decNeighbors (nodeIds.map (fun x => (x, degf x)))
                    (adjTargets E id)).2 := by
                rcases hmem with hq | ho
                · rcases List.mem_append.1 hq with hr | hnq
                  · exact Or.inl ((hzero x hx).2 (Or.inl (by simp [hr])))
                  · exact Or.inr hnq
                · rcases List.mem_append.1 ho with ho' | hi
                  · exact Or.inl ((hzero x hx).2 (Or.inr ho'))
                  · simp only [List.mem_singleton] at hi
                    exact Or.inl (hi ▸ hdegid)
              rcases hz0 with hz0 | hz0
              · have := hF4 x hx hz0
                rw [this]
                simp [hz0]
              · have hch := (hdm2 x).1 hz0
                have hge : 0 ≤ degf x -
                    ((adjTargets E id).count x : Int) := by
                  have hd := hdeg x hx
                  have hle := countFromIn_le_countTo E (order ++ [id]) x
                  have he := countFromIn_append_singleton E order id x
                    hidnotorder
                  have ha := adjTargets_count E id x
                  have hle2 := countFromIn_le_countTo E order x
                  omega
                omega
          · -- strict precedence
            intro c hc k hk
            by_cases hkl : k + 1 ≤ order.length
            · rw [List.take_append_of_le_length hkl] at hk
              have := hsp c hc k hk
              rw [List.take_append_of_le_length (by omega)]
              exact this
            · have hlen2 : (order ++ [id]).length ≤ k + 1 := by
                simp only [List.length_append, List.length_singleton]
                omega
              rw [List.take_of_length_le hlen2] at hk
              have hfrom : c.fromNodeId ∈ order := by
                rcases List.mem_append.1 hk with h | h
                · exact strictPrec_mem E order hsp c hc h
                · exact hF2 c hc (by simpa using h)
              have hmem2 : c.fromNodeId ∈
                  (order ++ [id]).take order.length := by
                rw [List.take_left]
                exact hfrom
              exact mem_take_mono _ order.length k (by omega) _ hmem2

/-! ## Cycles and reachability

The claim's "cyclic subset" is analysed through walks: a walk is a list of
nodes whose consecutive pairs are connected; a node is on a cycle when a
walk of length at least one returns to it, and reachable from a cycle when
a walk leads from such a node to it. -/

/-- Walk along the connection list: every consecutive pair is an edge. -/
def IsChain (E : List Connection) : List String → Prop
  | [] => True
  | [_] => True
  | a :: b :: t =>
      (∃ c ∈ E, c.fromNodeId = a ∧ c.toNodeId = b) ∧ IsChain E (b :: t)

/-- Node lying on a cycle: a closed walk of length ≥ 1 through it. -/
def CycleAt (E : List Connection) (x : String) : Prop :=
  ∃ l, IsChain E (x :: l ++ [x])

/-- Walk from a to b (possibly trivial when a = b). -/
def Reaches (E : List Connection) (a b : String) : Prop :=
  ∃ p, IsChain E p ∧ p.head? = some a ∧ p.getLast? = some b

/-- Node on a cycle or downstream of one. -/
def ReachableFromCycle (E : List Connection) (x : String) : Prop :=
  ∃ c, CycleAt E c ∧ Reaches E c x

theorem chain_tail (E : List Connection) (a : String) (rest : List String)
    (h : IsChain E (a :: rest)) : IsChain E rest := by
  cases rest with
  | nil => trivial
  | cons b t => exact h.2

theorem chain_append_right (E : List Connection) :
    ∀ (l₁ l₂ : List String), IsChain E (l₁ ++ l₂) → IsChain E l₂ := by
  intro l₁
  induction l₁ with
  | nil => intro l₂ h; exact h
  | cons a t ih =>
      intro l₂ h
      exact ih l₂ (chain_tail E a (t ++ l₂) h)

theorem chain_take (E : List Connection) :
    ∀ (l : List String) (n : Nat), IsChain E l → IsChain E (l.take n) := by
  intro l
  induction l with
  | nil => intro n _; simp [IsChain]
  | cons a t ih =>
      intro n h
      cases n with
      | zero => simp [IsChain]
      | succ m =>
          cases t with
          | nil =>
              rw [List.take_succ_cons, List.take_nil]
              trivial
          | cons b t' =>
              cases m with
              | zero => simp [IsChain]
              | succ m' =>
                  have htail : IsChain E ((b :: t').take (m' + 1)) :=
                    ih (m' + 1) h.2
                  refine ⟨h.1, ?_⟩
                  simpa using htail

theorem take_append_len {α : Type} :
    ∀ (l₁ l₂ : List α) (n : Nat),
      (l₁ ++ l₂).take (l₁.length + n) = l₁ ++ l₂.take n := by
  intro l₁
  induction l₁ with
  | nil => intro l₂ n; simp
  | cons a t ih =>
      intro l₂ n
      simp only [List.cons_append, List.length_cons]
      rw [Nat.succ_add, List.take_succ_cons, ih]

theorem getLast?_append_right {α : Type} :
    ∀ (l₁ l₂ : List α), l₂ ≠ [] →
      (l₁ ++ l₂).getLast? = l₂.getLast? := by
  intro l₁ l₂ h
  cases l₂ with
  | nil => exact absurd rfl h
  | cons b t =>
      rw [List.getLast?_append_cons]

theorem getElem_mem_take {α : Type} :
    ∀ (l : List α) (j : Nat) (h : j < l.length), l[j] ∈ l.take (j + 1) := by
  intro l
  induction l with
  | nil => intro j h; simp at h
  | cons a t ih =>
      intro j h
      cases j with
      | zero => simp
      | succ m =>
          simp only [List.getElem_cons_succ, List.take_succ_cons,
            List.mem_cons]
          exact Or.inr (ih m (by simpa using h))

theorem indexOf_lt_of_mem_take (x : String) :
    ∀ (l : List String) (k : Nat), x ∈ l.take k → l.indexOf x < k := by
  intro l
  induction l with
  | nil => intro k h; simp at h
  | cons a t ih =>
      intro k h
      cases k with
      | zero => simp at h
      | succ m =>
          simp only [List.take_succ_cons, List.mem_cons] at h
          by_cases hax : a = x
          · subst hax
            simp [List.indexOf_cons]
          · rcases h with rfl | h
            · exact absurd rfl hax
            · have := ih m h
              have hb : (a == x) = false := by
                simp [hax]
              simp only [List.indexOf_cons, hb, cond_false]
              omega

theorem mem_take_indexOf (x : String) (l : List String) (h : x ∈ l) :
    x ∈ l.take (l.indexOf x + 1) := by
  have hlt : l.indexOf x < l.length := List.indexOf_lt_length.2 h
  have hx : l[l.indexOf x] = x := List.getElem_indexOf hlt
  have := getElem_mem_take l (l.indexOf x) hlt
  rwa [hx] at this

theorem edge_index (E : List Connection) (order : List String)
    (hsp : strictPrec E order) (c : Connection) (hc : c ∈ E)
    (hto : c.toNodeId ∈ order) :
    c.fromNodeId ∈ order ∧
    order.indexOf c.fromNodeId < order.indexOf c.toNodeId := by
  have h1 : c.toNodeId ∈ order.take (order.indexOf c.toNodeId + 1) :=
    mem_take_indexOf _ order hto
  have h2 := hsp c hc (order.indexOf c.toNodeId) h1
  exact ⟨List.mem_of_mem_take h2,
    indexOf_lt_of_mem_take _ order _ h2⟩

theorem chain_mem_le (E : List Connection) (order : List String)
    (hsp : strictPrec E order) :
    ∀ (p : List String) (a b : String), IsChain E p → p.head? = some a →
      p.getLast? = some b → b ∈ order →
      a ∈ order ∧ order.indexOf a ≤ order.indexOf b ∧
      (2 ≤ p.length → order.indexOf a < order.indexOf b) := by
  intro p
  induction p with
  | nil => intro a b _ h; simp at h
  | cons a' t ih =>
      intro a b hchain hhead hlast hb
      simp only [List.head?_cons, Option.some.injEq] at hhead
      subst hhead
      cases t with
      | nil =>
          simp only [List.getLast?_singleton, Option.some.injEq] at hlast
          subst hlast
          exact ⟨hb, le_refl _, by intro h; simp at h⟩
      | cons b' t' =>
          have hlast' : (b' :: t').getLast? = some b := by
            simpa [List.getLast?_cons_cons] using hlast
          obtain ⟨hmem', hle', _⟩ :=
            ih b' b (chain_tail E a' _ hchain) (by simp) hlast' hb
          obtain ⟨ce, hce, hcf, hct⟩ := hchain.1
          have := edge_index E order hsp ce hce (by rw [hct]; exact hmem')
          rw [hcf, hct] at this
          exact ⟨this.1, by omega, fun _ => by omega⟩

theorem not_reachable_of_mem (E : List Connection) (order : List String)
    (hsp : strictPrec E order) (x : String) (hx : x ∈ order) :
    ¬ ReachableFromCycle E x := by
  rintro ⟨c, ⟨l, hcyc⟩, ⟨p, hchain, hhead, hlast⟩⟩
  have hcmem : c ∈ order :=
    (chain_mem_le E order hsp p c x hchain hhead hlast hx).1
  have hclast : (c :: l ++ [c]).getLast? = some c := by
    have : c :: l ++ [c] = (c :: l) ++ [c] := by simp
    rw [this, getLast?_append_right (c :: l) [c] (by simp)]
    rfl
  have := chain_mem_le E order hsp (c :: l ++ [c]) c c hcyc (by simp)
    hclast hcmem
  have hlen : 2 ≤ (c :: l ++ [c]).length := by
    simp
  have := this.2.2 hlen
  omega

theorem not_nodup_split {α : Type} :
    ∀ (p : List α), ¬ p.Nodup → ∃ u a v, p = u ++ a :: v ∧ a ∈ v := by
  intro p
  induction p with
  | nil => intro h; exact absurd List.nodup_nil h
  | cons a t ih =>
      intro h
      by_cases hat : a ∈ t
      · exact ⟨[], a, t, by simp, hat⟩
      · have : ¬ t.Nodup := by
          intro hnd
          exact h (List.nodup_cons.2 ⟨hat, hnd⟩)
        obtain ⟨u, b, v, hsplit, hbv⟩ := ih this
        exact ⟨a :: u, b, v, by simp [hsplit], hbv⟩

theorem backchain (E : List Connection) (S : List String)
    (hstep : ∀ x ∈ S, ∃ w ∈ S, ∃ c ∈ E, c.fromNodeId = w ∧
      c.toNodeId = x) :
    ∀ (n : Nat) (x : String), x ∈ S →
      ∃ p, IsChain E p ∧ p.getLast? = some x ∧ p.length = n + 1 ∧
        ∀ y ∈ p, y ∈ S := by
  intro n
  induction n with
  | zero =>
      intro x hx
      exact ⟨[x], trivial, rfl, rfl, by simpa using hx⟩
  | succ m ih =>
      intro x hx
      obtain ⟨p, hchain, hlast, hlen, hmem⟩ := ih x hx
      cases p with
      | nil => simp at hlen
      | cons h t =>
          obtain ⟨w, hw, c, hc, hcf, hct⟩ := hstep h (hmem h (by simp))
          refine ⟨w :: h :: t, ⟨⟨c, hc, hcf, hct⟩, hchain⟩, ?_, ?_, ?_⟩
          · simpa [List.getLast?_cons_cons] using hlast
          · simpa using hlen
          · intro y hy
            rcases List.mem_cons.1 hy with rfl | hy
            · exact hw
            · exact hmem y hy

theorem omitted_reachable (E : List Connection) (nodeIds : List String)
    (order : List String) (hnd : nodeIds.Nodup)
    (hpred : ∀ x ∈ nodeIds, x ∉ order → ∃ c ∈ E, c.toNodeId = x ∧
      c.fromNodeId ∈ nodeIds ∧ c.fromNodeId ∉ order) :
    ∀ x ∈ nodeIds, x ∉ order → ReachableFromCycle E x := by
  intro x hx hnot
  set S := nodeIds.filter (fun y => !(order.contains y)) with hS
  have hmemS : ∀ y, y ∈ S ↔ (y ∈ nodeIds ∧ y ∉ order) := by
    intro y
    rw [hS]
    simp [List.mem_filter, contains_iff]
  have hstep : ∀ y ∈ S, ∃ w ∈ S, ∃ c ∈ E, c.fromNodeId = w ∧
      c.toNodeId = y := by
    intro y hy
    obtain ⟨hy1, hy2⟩ := (hmemS y).1 hy
    obtain ⟨c, hc, hct, hcn, hco⟩ := hpred y hy1 hy2
    exact ⟨c.fromNodeId, (hmemS _).2 ⟨hcn, hco⟩, c, hc, rfl, hct⟩
  obtain ⟨p, hchain, hlast, hlen, hmem⟩ :=
    backchain E S hstep S.length x ((hmemS x).2 ⟨hx, hnot⟩)
  have hnodupS : S.Nodup := List.Nodup.filter _ hnd
  have hnotnodup : ¬ p.Nodup := by
    intro hnd'
    have hsub : p ⊆ S := fun y hy => hmem y hy
    have := (List.subperm_of_subset hnd' hsub).length_le
    omega
  obtain ⟨u, a, v, hsplit, hav⟩ := not_nodup_split p hnotnodup
  obtain ⟨v1, v2, hv⟩ := List.append_of_mem hav
  subst hv
  subst hsplit
  -- the closed walk a :: v1 ++ [a]
  have hchain2 : IsChain E (a :: (v1 ++ a :: v2)) :=
    chain_append_right E u _ hchain
  have hcyc : CycleAt E a := by
    refine ⟨v1, ?_⟩
    have : a :: v1 ++ [a] =
        (a :: (v1 ++ a :: v2)).take (v1.length + 2) := by
      simp only [List.cons_append]
      rw [List.take_succ_cons]
      congr 1
      have h2 : v1.length + 1 = v1.length + 1 := rfl
      calc v1 ++ [a] = v1 ++ (a :: v2).take 1 := by simp
        _ = (v1 ++ a :: v2).take (v1.length + 1) := by
            rw [take_append_len]
    rw [this]
    exact chain_take E _ _ hchain2
  have hreach : Reaches E a x := by
    refine ⟨a :: v2, ?_, by simp, ?_⟩
    · have : (u ++ a :: v1) ++ (a :: v2) = u ++ a :: (v1 ++ a :: v2) := by
        simp
      exact chain_append_right E (u ++ a :: v1) (a :: v2)
        (by rw [this]; exact hchain)
    · have : (u ++ a :: (v1 ++ a :: v2)).getLast? = some x := hlast
      rw [show u ++ a :: (v1 ++ a :: v2) =
          (u ++ a :: v1) ++ (a :: v2) by simp] at this
      rwa [getLast?_append_right _ _ (by simp)] at this
  exact ⟨a, hcyc, hreach⟩

/-- Instantiation of the loop invariant at buildProcessingOrder's initial
state: the produced order has no duplicates, draws from the node map's
keys, respects every filtered connection strictly, and every omitted node
has an omitted direct predecessor. -/
theorem buildProcessingOrder_spec (nodeIds : List String)
    (conns : List Connection) (hnd : nodeIds.Nodup) :
    (buildProcessingOrder nodeIds conns).Nodup ∧
    (∀ x ∈ buildProcessingOrder nodeIds conns, x ∈ nodeIds) ∧
    strictPrec (connsF nodeIds conns) (buildProcessingOrder nodeIds conns) ∧
    (∀ x ∈ nodeIds, x ∉ buildProcessingOrder nodeIds conns →
      ∃ c ∈ connsF nodeIds conns, c.toNodeId = x ∧ c.fromNodeId ∈ nodeIds ∧
        c.fromNodeId ∉ buildProcessingOrder nodeIds conns) := by
  obtain ⟨hd, ha⟩ := degAdj_spec nodeIds conns hnd
  have hEmem : ∀ c ∈ connsF nodeIds conns,
      c.fromNodeId ∈ nodeIds ∧ c.toNodeId ∈ nodeIds := by
    intro c hc
    have := List.mem_filter.1 hc
    simp only [Bool.and_eq_true] at this
    exact ⟨(contains_iff _ _).1 this.2.2, (contains_iff _ _).1 this.2.1⟩
  have hres : buildProcessingOrder nodeIds conns =
      kahnLoop nodeIds (degAdj nodeIds conns).2
        ((nodeIds.filter (fun x =>
            (countTo (connsF nodeIds conns) x : Int) == 0)).length +
          posWeight (nodeIds.map (fun x =>
            (x, (countTo (connsF nodeIds conns) x : Int)))))
        (nodeIds.filter (fun x =>
            (countTo (connsF nodeIds conns) x : Int) == 0))
        (nodeIds.map (fun x =>
            (x, (countTo (connsF nodeIds conns) x : Int)))) [] := by
    simp only [buildProcessingOrder]
    rw [hd, filter_map_zero nodeIds
      (fun x => (countTo (connsF nodeIds conns) x : Int))]
  rw [hres]
  exact kahnLoop_main nodeIds (connsF nodeIds conns) hnd hEmem
    (degAdj nodeIds conns).2 ha _
    (nodeIds.filter (fun x =>
      (countTo (connsF nodeIds conns) x : Int) == 0)) []
    (fun x => (countTo (connsF nodeIds conns) x : Int))
    (le_refl _)
    (by simpa using List.Nodup.filter _ hnd)
    (fun x hx => (List.mem_filter.1 hx).1)
    (by intro x hx; simp at hx)
    (by
      intro x hx
      rw [countFromIn_nil]
      simp)
    (by
      intro x hx
      simp [List.mem_filter, hx])
    (by
      intro c hc k h
      simp at h)

/-- C2 — counterexample to "exactly the nodes of the cyclic subset are
omitted from the order and all other nodes still appear": with nodes A, B,
C and connections A→B, B→A, A→C, the processing order is empty, so C is
omitted even though no cycle passes through C (C has no outgoing
connection at all, so no closed walk can visit it). -/
theorem C2_cycle_omission_counterexample :
    buildProcessingOrder ["A", "B", "C"]
      [⟨"A", 0, "B", 0⟩, ⟨"B", 0, "A", 0⟩, ⟨"A", 0, "C", 0⟩] = [] ∧
    ("C" : String) ∈ ["A", "B", "C"] ∧
    ¬ CycleAt (connsF ["A", "B", "C"]
      [⟨"A", 0, "B", 0⟩, ⟨"B", 0, "A", 0⟩, ⟨"A", 0, "C", 0⟩]) "C" := by
  refine ⟨by decide, by decide, ?_⟩
  rintro ⟨l, hchain⟩
  have hnoedge : ¬ ∃ c ∈ connsF ["A", "B", "C"]
      [⟨"A", 0, "B", 0⟩, ⟨"B", 0, "A", 0⟩, ⟨"A", 0, "C", 0⟩],
      c.fromNodeId = "C" := by decide
  cases l with
  | nil =>
      obtain ⟨c, hc, hf, _⟩ := hchain.1
      exact hnoedge ⟨c, hc, hf⟩
  | cons h t =>
      obtain ⟨c, hc, hf, _⟩ := hchain.1
      exact hnoedge ⟨c, hc, hf⟩

/-- C2 (amended) — for every duplicate-free node list and connection list,
buildProcessingOrder (i) places the source of every filtered connection in
the order, strictly before its target, whenever the target appears;
(ii) when no node lies on a cycle, lists every node exactly once; and
(iii) omits exactly the nodes on a cycle or reachable from one — not only
the cyclic subset itself, as the original claim says. -/
theorem C2_processing_order_cycles (nodeIds : List String)
    (conns : List Connection) (hnd : nodeIds.Nodup) :
    (∀ c ∈ connsF nodeIds conns,
      c.toNodeId ∈ buildProcessingOrder nodeIds conns →
      c.fromNodeId ∈ buildProcessingOrder nodeIds conns ∧
      (buildProcessingOrder nodeIds conns).indexOf c.fromNodeId <
        (buildProcessingOrder nodeIds conns).indexOf c.toNodeId) ∧
    ((∀ x, ¬ CycleAt (connsF nodeIds conns) x) →
      ∀ x ∈ nodeIds, (buildProcessingOrder nodeIds conns).count x = 1) ∧
    (∀ x ∈ nodeIds,
      (x ∉ buildProcessingOrder nodeIds conns ↔
        ReachableFromCycle (connsF nodeIds conns) x)) := by
  obtain ⟨h1, h2, h3, h4⟩ := buildProcessingOrder_spec nodeIds conns hnd
  refine ⟨?_, ?_, ?_⟩
  · intro c hc hto
    exact edge_index _ _ h3 c hc hto
  · intro hacyc x hx
    have hmem : x ∈ buildProcessingOrder nodeIds conns := by
      by_contra hnot
      obtain ⟨cy, hcy, _⟩ :=
        omitted_reachable _ nodeIds _ hnd h4 x hx hnot
      exact hacyc cy hcy
    exact List.count_eq_one_of_mem h1 hmem
  · intro x hx
    constructor
    · intro hnot
      exact omitted_reachable _ nodeIds _ hnd h4 x hx hnot
    · intro hrfc hmem
      exact not_reachable_of_mem _ _ h3 x hmem hrfc

theorem C2_processing_order_cycles_witness :
    (["A", "B"] : List String).Nodup ∧
    ("A" : String) ∈ ["A", "B"] ∧
    ("A" ∉ buildProcessingOrder ["A", "B"] [⟨"A", 0, "B", 0⟩] ↔
      ReachableFromCycle (connsF ["A", "B"] [⟨"A", 0, "B", 0⟩]) "A") :=
  ⟨by decide, by decide,
    (C2_processing_order_cycles ["A", "B"] [⟨"A", 0, "B", 0⟩]
      (by decide)).2.2 "A" (by decide)⟩

/-- A node is scheduled exactly when it exists and is not on or downstream
of a cycle — a characterization of the order's content that mentions no
positions, so it is insensitive to the maps' iteration order. -/
theorem mem_buildProcessingOrder_iff (nodeIds : List String)
    (conns : List Connection) (hnd : nodeIds.Nodup) (x : String) :
    x ∈ buildProcessingOrder nodeIds conns ↔
      x ∈ nodeIds ∧ ¬ ReachableFromCycle (connsF nodeIds conns) x := by
  obtain ⟨h1, h2, h3, h4⟩ := buildProcessingOrder_spec nodeIds conns hnd
  constructor
  · intro hx
    exact ⟨h2 x hx, not_reachable_of_mem _ _ h3 x hx⟩
  · rintro ⟨hxn, hnr⟩
    by_contra hnot
    exact hnr (omitted_reachable _ nodeIds _ hnd h4 x hxn hnot)

theorem connsF_perm (nodeIds₁ nodeIds₂ : List String)
    (conns : List Connection) (hperm : nodeIds₁.Perm nodeIds₂) :
    connsF nodeIds₁ conns = connsF nodeIds₂ conns := by
  unfold connsF
  apply List.filter_congr
  intro c _
  have h1 : nodeIds₁.contains c.toNodeId =
      nodeIds₂.contains c.toNodeId := by
    rw [Bool.eq_iff_iff]
    simp only [contains_iff]
    exact hperm.mem_iff
  have h2 : nodeIds₁.contains c.fromNodeId =
      nodeIds₂.contains c.fromNodeId := by
    rw [Bool.eq_iff_iff]
    simp only [contains_iff]
    exact hperm.mem_iff
  rw [h1, h2]

/-- C5 — counterexample to "for any two runs over the same node map
contents ... identical processing orders, with ties among in-degree-zero
nodes broken by the stable insertion order of the node map": the same
two-node map contents presented in the two possible iteration orders —
C++ seeds Kahn's queue from iterating a freshly built std::unordered_map,
whose hash-determined order the standard ties to nothing, certainly not to
insertion order, so both orders are consistent with the source — yield two
different processing orders. The sequence is decided by the iteration
order alone; no insertion-order tie-break exists in the code. -/
theorem C5_iteration_order_counterexample :
    (["A", "B"] : List String).Perm ["B", "A"] ∧
    buildProcessingOrder ["A", "B"] [] = ["A", "B"] ∧
    buildProcessingOrder ["B", "A"] [] = ["B", "A"] ∧
    buildProcessingOrder ["A", "B"] [] ≠
      buildProcessingOrder ["B", "A"] [] := by
  exact ⟨by decide, by decide, by decide, by decide⟩

/-- C5 (amended) — the scheduler is a pure function of the maps'
iteration-order key list and the connection list, and the map contents
alone determine the content of the result: iterating the same duplicate-
free node-map contents in any other (hash-determined) order yields a
permutation of the processing order — the same nodes are scheduled, the
same nodes omitted. The sequence itself, including the tie among
in-degree-zero nodes, follows the iteration order, which
std::unordered_map does not tie to insertion order. -/
theorem C5_scheduler_order_content (nodeIds₁ nodeIds₂ : List String)
    (conns : List Connection) (hnd₁ : nodeIds₁.Nodup)
    (hperm : nodeIds₁.Perm nodeIds₂) :
    (buildProcessingOrder nodeIds₁ conns).Perm
      (buildProcessingOrder nodeIds₂ conns) := by
  have hnd₂ : nodeIds₂.Nodup := hperm.nodup hnd₁
  have hcf := connsF_perm nodeIds₁ nodeIds₂ conns hperm
  obtain ⟨hn1, -, -, -⟩ := buildProcessingOrder_spec nodeIds₁ conns hnd₁
  obtain ⟨hn2, -, -, -⟩ := buildProcessingOrder_spec nodeIds₂ conns hnd₂
  refine (List.perm_ext_iff_of_nodup hn1 hn2).2 ?_
  intro a
  rw [mem_buildProcessingOrder_iff nodeIds₁ conns hnd₁ a,
    mem_buildProcessingOrder_iff nodeIds₂ conns hnd₂ a, hcf,
    hperm.mem_iff]

theorem C5_scheduler_order_content_witness :
    (["A", "B"] : List String).Nodup ∧
    (["A", "B"] : List String).Perm ["B", "A"] ∧
    (buildProcessingOrder ["A", "B"] [⟨"A", 0, "B", 0⟩]).Perm
      (buildProcessingOrder ["B", "A"] [⟨"A", 0, "B", 0⟩]) :=
  ⟨by decide, by decide,
    C5_scheduler_order_content ["A", "B"] ["B", "A"] [⟨"A", 0, "B", 0⟩]
      (by decide) (by decide)⟩

end RAU
